import Mathlib

/-!
# GroupByIndexNode (thrill/api/groupby_index.hpp)

A shallow embedding of the `GroupByIndexNode` operator: the local partitioner
`PreOp`, the spill manager `FlushVectorToFile`, the receive / merge phase
`MainOp` and the grouping driver `PushData`.

Modelling conventions.

* A `data::File` is the list of the records written to it, in write order.  A
  `Writer` appends at the end and a `Reader` yields the records front to back.
  Consuming readers release the storage behind them; the records they yield
  are the same, so the release is not tracked.
* `emitter_` (one channel writer per worker) is the list of the per-recipient
  record sequences written so far; `emitter_.size()` is its length.
* `std::size_t` values are natural numbers.  `PushData` advances `curr_index`
  with wrap-around modulo `2 ^ 64`; the quotient computed by `PreOp` cannot
  overflow and is computed exactly.
* Keys (`Key`) and hash values are `std::size_t`, hence `Nat`.
* `ValueComparator::operator()` takes `const ValueType&` while `std::sort` and
  the multiway merge compare `ValueIn` records, and the key extractor takes a
  `ValueIn`: every record is converted to `ValueType` and back before its key is
  extracted.  The two conversions are members of the node.
* Undefined behaviour of the C++ code (division by zero, an index past the end
  of `emitter_`), a failed `assert`, and fuel exhaustion of the `PushData`
  loop are reported as a `Fault`.
* `shuffle_and_group` runs the operator on all workers: the `PreOp` phase of
  every worker, then `MainOp` and `PushData` on every worker.  The channel
  hands to the reader of worker `r` the records written to writer `r` by all
  workers, in an order of arrival that is a parameter.
-/

namespace Thrill

/-- Modulus of `std::size_t` arithmetic. -/
def SIZE_MOD : Nat := 2 ^ 64

/-- Ways in which an operation of the node does not return normally. -/
inductive Fault where
  | assertion_failed
  | division_by_zero
  | index_out_of_range
  | out_of_fuel
  deriving DecidableEq, Repr

/-- The members of `GroupByIndexNode`.  `groupby_function_` receives the
`GroupByIterator` (the records not yet consumed from the sorted file, the next
record first) and the key; it returns its result together with the iterator as
it leaves it. `my_rank` is `context_.my_rank()`.  `ValueOut` is the template
parameter `ValueType`.  `to_ValueType` and `to_ValueIn` are the implicit
conversions between the two record types that C++ applies where a value of one
type is passed for a parameter of the other. -/
structure GroupByIndexNode (ValueIn ValueOut : Type) where
  key_extractor_ : ValueIn → Nat
  groupby_function_ : List ValueIn → Nat → ValueOut × List ValueIn
  number_keys_ : Nat
  neutral_element_ : ValueOut
  hash_function_ : Nat → Nat
  to_ValueType : ValueIn → ValueOut
  to_ValueIn : ValueOut → ValueIn
  emitter_ : List (List ValueIn)
  files_ : List (List ValueIn)
  sorted_elems_ : List ValueIn
  my_rank : Nat

variable {ValueIn ValueOut : Type}

/-- The expression `number_keys_ / emitter_.size() + (number_keys_ % emitter_.size() != 0)`
that `PreOp` divides by and that `PushData` names `keyspace`. -/
def keyspace (number_keys workers : Nat) : Nat :=
  number_keys / workers + (if number_keys % workers != 0 then 1 else 0)

/-- The `recipient` computed by `PreOp` for key `k`. -/
def recipient (number_keys workers k : Nat) : Nat :=
  k / keyspace number_keys workers

/-- A channel writer call `emitter_[i](v)`: append `v` to the `i`-th sequence. -/
def emit_to (node : GroupByIndexNode ValueIn ValueOut) (i : Nat) (v : ValueIn) :
    GroupByIndexNode ValueIn ValueOut :=
  { node with emitter_ := node.emitter_.modify (fun buf => buf ++ [v]) i }

/-- `GroupByIndexNode::PreOp`. -/
def PreOp (node : GroupByIndexNode ValueIn ValueOut) (v : ValueIn) :
    Except Fault (GroupByIndexNode ValueIn ValueOut) :=
  let k := node.key_extractor_ v
  if ¬ k < node.number_keys_ then Except.error Fault.assertion_failed
  else if node.emitter_.length = 0 then Except.error Fault.division_by_zero
  else if keyspace node.number_keys_ node.emitter_.length = 0 then
    Except.error Fault.division_by_zero
  else
    let r := recipient node.number_keys_ node.emitter_.length k
    if r < node.emitter_.length then
      Except.ok (emit_to node r v)
    else Except.error Fault.index_out_of_range

/-- `GroupByIndexNode::ValueComparator::operator()`: its parameters are of type
`ValueType`; the key extractor takes a `ValueIn`, so each argument is converted
before its key is extracted, and the hashes of the keys are compared. -/
def ValueComparator (node : GroupByIndexNode ValueIn ValueOut) (i j : ValueOut) : Bool :=
  let i_cmp := node.hash_function_ (node.key_extractor_ (node.to_ValueIn i))
  let j_cmp := node.hash_function_ (node.key_extractor_ (node.to_ValueIn j))
  decide (i_cmp < j_cmp)

/-- The comparator as `std::sort` and the multiway merge call it on two records
of a `std::vector<ValueIn>` or of a file of `ValueIn`: each record is converted
to `ValueType`, the parameter type of `ValueComparator::operator()`. -/
def record_comparator (node : GroupByIndexNode ValueIn ValueOut) (a b : ValueIn) : Bool :=
  ValueComparator node (node.to_ValueType a) (node.to_ValueType b)

/-- The number by which the comparator ranks a record: the hash of the key of
the record as the comparator receives it, converted to `ValueType` and, for the
key extractor, back to `ValueIn`. -/
def comparison_key (node : GroupByIndexNode ValueIn ValueOut) (a : ValueIn) : Nat :=
  node.hash_function_ (node.key_extractor_ (node.to_ValueIn (node.to_ValueType a)))

/-- Insertion of one element in front of the first element that `comp` places
after it. -/
def sort_insert {α : Type} (comp : α → α → Bool) (x : α) : List α → List α
  | [] => [x]
  | y :: ys => if comp x y then x :: y :: ys else y :: sort_insert comp x ys

/-- `std::sort(first, last, comp)` of the C++ standard library: the range is
rearranged so that no element is followed by one that `comp` places before it;
the relative order of equivalent elements is unspecified.  Insertion sort is the
concrete rearrangement used here. -/
def std_sort {α : Type} (comp : α → α → Bool) : List α → List α
  | [] => []
  | x :: xs => sort_insert comp x (std_sort comp xs)

/-- A `Writer` that is handed the records of a sequence one after the other
(`for (e : v) w(e)` and `while (r.HasNext()) w(r.Next())`). The first argument
is the content written so far. -/
def write_all {α : Type} : List α → List α → List α
  | w, [] => w
  | w, e :: rest => write_all (w ++ [e]) rest

/-- `GroupByIndexNode::FlushVectorToFile`: sort the buffer with the node's
comparator, write it to a new file and append the file to `files_`. -/
def FlushVectorToFile (node : GroupByIndexNode ValueIn ValueOut) (v : List ValueIn) :
    GroupByIndexNode ValueIn ValueOut :=
  let sorted := std_sort (record_comparator node) v
  let f := write_all [] sorted
  { node with files_ := node.files_ ++ [f] }

/-- The local variables of `MainOp` during its receive loop, with the node. -/
structure MainOpState (ValueIn ValueOut : Type) where
  node : GroupByIndexNode ValueIn ValueOut
  incoming : List ValueIn
  totalsize : Nat

/-- The receive loop of `MainOp` (`while (reader.HasNext())`), run over the
records the concatenated channel reader yields. -/
def receive_loop (FIXED_VECTOR_SIZE : Nat) :
    MainOpState ValueIn ValueOut → List ValueIn → MainOpState ValueIn ValueOut
  | st, [] => st
  | st, elem :: reader =>
    let st1 : MainOpState ValueIn ValueOut :=
      if st.incoming.length = FIXED_VECTOR_SIZE then
        { node := FlushVectorToFile st.node st.incoming
          incoming := []
          totalsize := st.totalsize + FIXED_VECTOR_SIZE }
      else st
    receive_loop FIXED_VECTOR_SIZE
      { node := st1.node, incoming := st1.incoming ++ [elem], totalsize := st1.totalsize } reader

/-- The first half of `MainOp`: the receive loop followed by the final
`totalsize += incoming.size(); FlushVectorToFile(incoming)` and the release of
the buffer. -/
def spill_phase (node : GroupByIndexNode ValueIn ValueOut) (FIXED_VECTOR_SIZE : Nat)
    (channel : List ValueIn) : MainOpState ValueIn ValueOut :=
  let st := receive_loop FIXED_VECTOR_SIZE
    { node := node, incoming := [], totalsize := 0 } channel
  { node := FlushVectorToFile st.node st.incoming
    incoming := []
    totalsize := st.totalsize + st.incoming.length }

/-- Modelled from the spec: `core::sequential_file_multiway_merge`
(thrill/core/multiway_merge.hpp) is not among the sources.  One step of the
k-way merge of §4.6: among the runs that still hold records, take the front
record that `comp` places before the front records of all other runs (the
earliest run wins among equivalent fronts) and remove it from its run. -/
def pop_min {α : Type} (comp : α → α → Bool) : List (List α) → Option (α × List (List α))
  | [] => none
  | [] :: rs =>
    match pop_min comp rs with
    | none => none
    | some (b, rs') => some (b, [] :: rs')
  | (a :: as) :: rs =>
    match pop_min comp rs with
    | none => some (a, as :: rs)
    | some (b, rs') => if comp b a then some (b, (a :: as) :: rs') else some (a, as :: rs)

/-- Modelled from the spec: `core::sequential_file_multiway_merge`
(thrill/core/multiway_merge.hpp) is not among the sources.  §4.6: the runs are
merged by a k-way merge keyed by the comparator, every record of every run is
emitted once, a record with a smaller key before one with a larger key.  The
last argument is the `length` (number of records to emit) that the caller
passes. -/
def sequential_file_multiway_merge {α : Type} (comp : α → α → Bool) :
    List (List α) → Nat → List α
  | _, 0 => []
  | seq, length + 1 =>
    match pop_min comp seq with
    | none => []
    | some (x, seq') => x :: sequential_file_multiway_merge comp seq' length

/-- `GroupByIndexNode::MainOp`, given the capacity `FIXED_VECTOR_SIZE`
(`1000000000 / sizeof(ValueIn)` in the source) and the records the channel
reader yields.  Closing the emitters leaves the records written to them as they
are.  With one run the run is copied into `sorted_elems_`; otherwise the runs
are merged into it, `totalsize` being the number of records to merge. -/
def MainOp (node : GroupByIndexNode ValueIn ValueOut) (FIXED_VECTOR_SIZE : Nat)
    (channel : List ValueIn) : GroupByIndexNode ValueIn ValueOut :=
  let st := spill_phase node FIXED_VECTOR_SIZE channel
  match st.node.files_ with
  | [run] =>
    { st.node with sorted_elems_ := write_all st.node.sorted_elems_ run }
  | runs =>
    let merged := sequential_file_multiway_merge (record_comparator st.node) runs st.totalsize
    { st.node with sorted_elems_ := write_all st.node.sorted_elems_ merged }

/-- One iteration of the `PushData` loop as seen from outside: either the
neutral element is pushed to the callbacks, or the grouping function is called
with the iterator `iter` and the key `key` and its result `res` is pushed. -/
inductive Emission (ValueIn ValueOut : Type) where
  | neutral (v : ValueOut)
  | grouped (iter : List ValueIn) (key : Nat) (res : ValueOut)

/-- The value an iteration pushes to every callback in `callbacks_`. -/
def Emission.value : Emission ValueIn ValueOut → ValueOut
  | Emission.neutral v => v
  | Emission.grouped _ _ res => res

/-- The arguments of the call of `groupby_function_` made by an iteration. -/
def Emission.call : Emission ValueIn ValueOut → Option (List ValueIn × Nat)
  | Emission.neutral _ => none
  | Emission.grouped iter key _ => some (iter, key)

/-- The sequence of values pushed downstream. -/
def emitted (trace : List (Emission ValueIn ValueOut)) : List ValueOut :=
  trace.map Emission.value

/-- The keys passed as second argument to `groupby_function_`, in call order. -/
def called_keys (trace : List (Emission ValueIn ValueOut)) : List Nat :=
  trace.filterMap (fun e => e.call.map Prod.snd)

/-- Modelled from the spec: `GroupByIterator` (thrill/api/groupby_iterator.hpp)
is not among the sources.  §4.7: the iterator stands at the next record of the
sorted stream; `HasNextForReal()` holds while a record is left and
`GetNextKey()` is the key of that record.  The iterator is the list of the
records left, so the loop `while (user_iterator.HasNextForReal())` of `PushData`
is a match on that list.  `fuel` bounds the number of iterations. -/
def push_loop (node : GroupByIndexNode ValueIn ValueOut) :
    Nat → List ValueIn → Nat → Except Fault (List (Emission ValueIn ValueOut))
  | _, [], _ => Except.ok []
  | 0, _ :: _, _ => Except.error Fault.out_of_fuel
  | fuel + 1, r :: rest, curr_index =>
    if node.key_extractor_ r ≠ curr_index then
      (push_loop node fuel (r :: rest) ((curr_index + 1) % SIZE_MOD)).map
        (fun trace => Emission.neutral node.neutral_element_ :: trace)
    else
      let call := node.groupby_function_ (r :: rest) (node.key_extractor_ r)
      (push_loop node fuel call.2 ((curr_index + 1) % SIZE_MOD)).map
        (fun trace => Emission.grouped (r :: rest) (node.key_extractor_ r) call.1 :: trace)

/-- `GroupByIndexNode::PushData`: the trace of the iterations of its loop. -/
def PushData (node : GroupByIndexNode ValueIn ValueOut) (fuel : Nat) :
    Except Fault (List (Emission ValueIn ValueOut)) :=
  match node.sorted_elems_ with
  | [] => Except.ok []
  | r :: rest =>
    if node.emitter_.length = 0 then Except.error Fault.division_by_zero
    else
      let keyspace := keyspace node.number_keys_ node.emitter_.length
      let curr_index := (keyspace * node.my_rank) % SIZE_MOD
      push_loop node fuel (r :: rest) curr_index

/-- The iteration of the `PushData` loop that §4.7 describes for index `i`
over the sorted stream `stream`, for a grouping function whose result on a run
of records with key `i` is `f run i`: when the stream holds a record with key
`i`, the grouping function is called with the iterator standing at the first
such record (the records with key `≥ i`) and its result on the records with key
`i` is pushed; otherwise the neutral element is pushed. -/
def expected_emission (node : GroupByIndexNode ValueIn ValueOut)
    (f : List ValueIn → Nat → ValueOut) (stream : List ValueIn) (i : Nat) :
    Emission ValueIn ValueOut :=
  if stream.any (fun r => node.key_extractor_ r == i) then
    Emission.grouped (stream.filter (fun r => decide (i ≤ node.key_extractor_ r))) i
      (f (stream.filter (fun r => node.key_extractor_ r == i)) i)
  else Emission.neutral node.neutral_element_

/-- The grouping function of `node` consumes exactly the run of records of the
key it is called for, and its result is `f run key` for that run: called with
the iterator standing at a record `r`, it reads the records up to the first one
whose key differs from the key of `r` and leaves the iterator there. -/
def ConsumesRun (node : GroupByIndexNode ValueIn ValueOut)
    (f : List ValueIn → Nat → ValueOut) : Prop :=
  ∀ r rest, node.groupby_function_ (r :: rest) (node.key_extractor_ r) =
    (f ((r :: rest).takeWhile (fun x => node.key_extractor_ x == node.key_extractor_ r))
        (node.key_extractor_ r),
     (r :: rest).dropWhile (fun x => node.key_extractor_ x == node.key_extractor_ r))

/-- The node as it stands on the worker of rank `rank` once `MainOp` has left
`sorted` in its sorted output file. -/
def at_worker (node : GroupByIndexNode ValueIn ValueOut) (rank : Nat) (sorted : List ValueIn) :
    GroupByIndexNode ValueIn ValueOut :=
  { node with my_rank := rank, sorted_elems_ := sorted }

/-- `GroupByIndexNode::PreOp` followed up to the point where it returns or
stops: the node as it stands there, and the fault it stopped with, if any.  The
`assert` comes before the division and before the call of the writer. -/
def PreOp_run (node : GroupByIndexNode ValueIn ValueOut) (v : ValueIn) :
    GroupByIndexNode ValueIn ValueOut × Option Fault :=
  let k := node.key_extractor_ v
  if ¬ k < node.number_keys_ then (node, some Fault.assertion_failed)
  else if node.emitter_.length = 0 then (node, some Fault.division_by_zero)
  else if keyspace node.number_keys_ node.emitter_.length = 0 then
    (node, some Fault.division_by_zero)
  else
    let r := recipient node.number_keys_ node.emitter_.length k
    if r < node.emitter_.length then (emit_to node r v, none)
    else (node, some Fault.index_out_of_range)

/-- The records an iteration of `PushData` hands to the grouping function:
those the call has taken off the iterator, from the position it was called at
up to the position it left the iterator at. -/
def Emission.consumed (node : GroupByIndexNode ValueIn ValueOut) :
    Emission ValueIn ValueOut → List ValueIn
  | Emission.neutral _ => []
  | Emission.grouped iter key _ =>
    iter.take (iter.length - (node.groupby_function_ iter key).2.length)

/-- The records that reach the grouping function during a run of `PushData`,
in the order in which they are read. -/
def grouped_records (node : GroupByIndexNode ValueIn ValueOut)
    (trace : List (Emission ValueIn ValueOut)) : List ValueIn :=
  (trace.map (Emission.consumed node)).flatten

/-- The node of the worker of rank `rank` as the constructor leaves it in a job
of `w` workers: one channel writer per worker with nothing written yet, no run
stored, an empty sorted output file. -/
def worker_node (node : GroupByIndexNode ValueIn ValueOut) (w rank : Nat) :
    GroupByIndexNode ValueIn ValueOut :=
  { node with emitter_ := List.replicate w [], files_ := [], sorted_elems_ := [],
              my_rank := rank }

/-- The parent node delivering the input records of one worker to `PreOp`, one
after the other. -/
def PreOp_all (node : GroupByIndexNode ValueIn ValueOut) :
    List ValueIn → Except Fault (GroupByIndexNode ValueIn ValueOut)
  | [] => Except.ok node
  | v :: vs =>
    match PreOp node v with
    | Except.error e => Except.error e
    | Except.ok node' => PreOp_all node' vs

/-- The `PreOp` phase of all workers: the worker of rank `i`, `i + 1`, ... is
fed the first, second, ... list of input records. -/
def PreOp_phase (node : GroupByIndexNode ValueIn ValueOut) (w : Nat) :
    Nat → List (List ValueIn) → Except Fault (List (GroupByIndexNode ValueIn ValueOut))
  | _, [] => Except.ok []
  | i, l :: ls =>
    match PreOp_all (worker_node node w i) l with
    | Except.error e => Except.error e
    | Except.ok s =>
      match PreOp_phase node w (i + 1) ls with
      | Except.error e => Except.error e
      | Except.ok ss => Except.ok (s :: ss)

/-- Modelled from the spec: `Channel` (thrill/data/channel.hpp) is not among
the sources.  §4.3: the channel delivers every record written to it exactly
once to the reader of its addressed recipient; the concatenated reader of
worker `r` yields the records that every worker has written to its writer
number `r`.  The records are listed here writer by writer; the order in which
they really arrive is a rearrangement of this list. -/
def OpenConcatReader (senders : List (GroupByIndexNode ValueIn ValueOut)) (r : Nat) :
    List ValueIn :=
  (senders.map (fun s => s.emitter_.getD r [])).flatten

/-- `Execute` (that is, `MainOp`) followed by `PushData` on each worker of the
list, given the nodes of all workers after their `PreOp` phase.  `arrival r`
is the order in which the records sent to worker `r` arrive at its reader. -/
def group_phase (arrival : Nat → List ValueIn → List ValueIn) (cap fuel : Nat)
    (senders : List (GroupByIndexNode ValueIn ValueOut)) :
    List (GroupByIndexNode ValueIn ValueOut) →
      Except Fault (List (List (Emission ValueIn ValueOut)))
  | [] => Except.ok []
  | s :: rest =>
    match PushData
        (MainOp s cap (arrival s.my_rank (OpenConcatReader senders s.my_rank))) fuel with
    | Except.error e => Except.error e
    | Except.ok trace =>
      match group_phase arrival cap fuel senders rest with
      | Except.error e => Except.error e
      | Except.ok traces => Except.ok (trace :: traces)

/-- The whole operator on `w` workers: every worker partitions its input
records with `PreOp`, then every worker receives, spills and merges with
`MainOp` and groups with `PushData`.  The result lists the `PushData` trace of
worker 0, 1, ... -/
def shuffle_and_group (node : GroupByIndexNode ValueIn ValueOut) (w cap : Nat)
    (arrival : Nat → List ValueIn → List ValueIn) (inputs : List (List ValueIn))
    (fuel : Nat) : Except Fault (List (List (Emission ValueIn ValueOut))) :=
  match PreOp_phase node w 0 inputs with
  | Except.error e => Except.error e
  | Except.ok senders => group_phase arrival cap fuel senders senders

/-- The records of `l` listed by recipient among `w` workers: entry `r` holds,
in their order in `l`, the records whose key `PreOp` maps to recipient `r`. -/
def by_recipient (node : GroupByIndexNode ValueIn ValueOut) (w : Nat) (l : List ValueIn) :
    List (List ValueIn) :=
  (List.range w).map (fun r =>
    l.filter (fun v => recipient node.number_keys_ w (node.key_extractor_ v) == r))

/-- The node of the worker of rank `rank` once `PreOp` has been called on all
the input records `l` of that worker: writer `r` has been handed the records of
`l` whose recipient is `r`. -/
def sent_node (node : GroupByIndexNode ValueIn ValueOut) (w rank : Nat) (l : List ValueIn) :
    GroupByIndexNode ValueIn ValueOut :=
  { worker_node node w rank with emitter_ := by_recipient node w l }

/-- A node over natural-number records whose key is the record itself; the
grouping function counts the records of its run. Used for concrete checks. -/
def countNode (number_keys workers rank : Nat) (sorted : List Nat) : GroupByIndexNode Nat Nat where
  key_extractor_ := fun v => v
  groupby_function_ := fun it k =>
    ((it.takeWhile (fun r => r == k)).length, it.dropWhile (fun r => r == k))
  number_keys_ := number_keys
  neutral_element_ := 0
  hash_function_ := fun k => k
  to_ValueType := fun v => v
  to_ValueIn := fun v => v
  emitter_ := List.replicate workers []
  files_ := []
  sorted_elems_ := sorted
  my_rank := rank

/-- The node `countNode` with a decreasing hash function in place of the
identity: `hash_function_ k = 9 - k`. -/
def descHashNode : GroupByIndexNode Nat Nat :=
  { countNode 10 1 0 [] with hash_function_ := fun k => 9 - k }

/-- The node `countNode` with an 8-bit result type: converting a record to
`ValueType` keeps its low eight bits (`uint8_t`), converting back is exact. -/
def narrowNode : GroupByIndexNode Nat Nat :=
  { countNode 300 1 0 [] with to_ValueType := fun v => v % 256 }

/-! ## Partitioning -/

theorem keyspace_pos {n w : Nat} (hn : 1 ≤ n) (hw : 1 ≤ w) : 0 < keyspace n w := by
  unfold keyspace
  by_cases h : n % w = 0
  · have : w ≤ n := Nat.le_of_dvd hn (Nat.dvd_of_mod_eq_zero h)
    have : 0 < n / w := Nat.div_pos this hw
    omega
  · simp [h]

theorem le_keyspace_mul (n w : Nat) (hw : 1 ≤ w) : n ≤ keyspace n w * w := by
  unfold keyspace
  have h1 := Nat.div_add_mod n w
  have h2 : n % w < w := Nat.mod_lt n hw
  by_cases h : n % w = 0
  · simp [h]
    have : w * (n / w) = n := by omega
    rw [Nat.mul_comm]; omega
  · simp [h]
    rw [Nat.add_mul, Nat.mul_comm (n / w) w]; omega

theorem recipient_lt {n w k : Nat} (hw : 1 ≤ w) (hk : k < n) : recipient n w k < w := by
  have hn : 1 ≤ n := by omega
  unfold recipient
  rw [Nat.div_lt_iff_lt_mul (keyspace_pos hn hw), Nat.mul_comm]
  exact Nat.lt_of_lt_of_le hk (le_keyspace_mul n w hw)

theorem PreOp_send (node : GroupByIndexNode ValueIn ValueOut) (v : ValueIn)
    (hn : 1 ≤ node.number_keys_) (hw : 1 ≤ node.emitter_.length)
    (hk : node.key_extractor_ v < node.number_keys_) :
    PreOp node v = Except.ok (emit_to node
      (recipient node.number_keys_ node.emitter_.length (node.key_extractor_ v)) v) := by
  have h1 := keyspace_pos hn hw
  have h2 := recipient_lt hw hk
  unfold PreOp
  simp only [hk, not_true_eq_false, if_false]
  rw [if_neg (by omega), if_neg (by omega), if_pos h2]

/-- C1: for `number_keys_ = n ≥ 1`, `emitter_.size() = w ≥ 1` and a record whose
key `k` satisfies `k < n`, the divisor `PreOp` builds is non-zero, the recipient
`k / (n / w + (n % w != 0))` lies in `[0, w)`, and `PreOp` returns normally
having written the record to `emitter_[recipient]`. -/
theorem PreOp_recipient_in_bounds (node : GroupByIndexNode ValueIn ValueOut) (v : ValueIn)
    (hn : 1 ≤ node.number_keys_) (hw : 1 ≤ node.emitter_.length)
    (hk : node.key_extractor_ v < node.number_keys_) :
    keyspace node.number_keys_ node.emitter_.length ≠ 0 ∧
    recipient node.number_keys_ node.emitter_.length (node.key_extractor_ v)
      < node.emitter_.length ∧
    PreOp node v = Except.ok (emit_to node
      (recipient node.number_keys_ node.emitter_.length (node.key_extractor_ v)) v) := by
  have h1 := keyspace_pos hn hw
  have h2 := recipient_lt hw hk
  exact ⟨by omega, h2, PreOp_send node v hn hw hk⟩

theorem PreOp_recipient_in_bounds_witness :
    keyspace (countNode 10 2 0 []).number_keys_ (countNode 10 2 0 []).emitter_.length ≠ 0 ∧
    recipient (countNode 10 2 0 []).number_keys_ (countNode 10 2 0 []).emitter_.length
      ((countNode 10 2 0 []).key_extractor_ 7) < (countNode 10 2 0 []).emitter_.length ∧
    PreOp (countNode 10 2 0 []) 7 = Except.ok (emit_to (countNode 10 2 0 [])
      (recipient (countNode 10 2 0 []).number_keys_ (countNode 10 2 0 []).emitter_.length
        ((countNode 10 2 0 []).key_extractor_ 7)) 7) :=
  PreOp_recipient_in_bounds (countNode 10 2 0 []) 7 (by decide) (by decide) (by decide)

/-- C3: for a node with `number_keys_ ≥ 1` and at least one worker, `PreOp`
sends each record to the writer whose index is `recipient`, a function of the
record's key (and the two fixed sizes) alone, and that index is monotonic in
the key: records with keys `k1 ≤ k2 < number_keys_` get recipients
`recipient k1 ≤ recipient k2`. -/
theorem PreOp_recipient_monotone (node : GroupByIndexNode ValueIn ValueOut) (v1 v2 : ValueIn)
    (hn : 1 ≤ node.number_keys_) (hw : 1 ≤ node.emitter_.length)
    (h12 : node.key_extractor_ v1 ≤ node.key_extractor_ v2)
    (h2 : node.key_extractor_ v2 < node.number_keys_) :
    PreOp node v1 = Except.ok (emit_to node
      (recipient node.number_keys_ node.emitter_.length (node.key_extractor_ v1)) v1) ∧
    PreOp node v2 = Except.ok (emit_to node
      (recipient node.number_keys_ node.emitter_.length (node.key_extractor_ v2)) v2) ∧
    recipient node.number_keys_ node.emitter_.length (node.key_extractor_ v1)
      ≤ recipient node.number_keys_ node.emitter_.length (node.key_extractor_ v2) := by
  refine ⟨(PreOp_send node v1 hn hw (by omega)), (PreOp_send node v2 hn hw h2), ?_⟩
  unfold recipient
  exact Nat.div_le_div_right h12

theorem PreOp_recipient_monotone_witness :
    PreOp (countNode 10 3 0 []) 3 = Except.ok (emit_to (countNode 10 3 0 [])
      (recipient (countNode 10 3 0 []).number_keys_ (countNode 10 3 0 []).emitter_.length
        ((countNode 10 3 0 []).key_extractor_ 3)) 3) ∧
    PreOp (countNode 10 3 0 []) 8 = Except.ok (emit_to (countNode 10 3 0 [])
      (recipient (countNode 10 3 0 []).number_keys_ (countNode 10 3 0 []).emitter_.length
        ((countNode 10 3 0 []).key_extractor_ 8)) 8) ∧
    recipient (countNode 10 3 0 []).number_keys_ (countNode 10 3 0 []).emitter_.length
        ((countNode 10 3 0 []).key_extractor_ 3)
      ≤ recipient (countNode 10 3 0 []).number_keys_ (countNode 10 3 0 []).emitter_.length
        ((countNode 10 3 0 []).key_extractor_ 8) :=
  PreOp_recipient_monotone (countNode 10 3 0 []) 3 8 (by decide) (by decide) (by decide)
    (by decide)


/-! ## Sorting and merging -/

theorem write_all_eq {α : Type} (w src : List α) : write_all w src = w ++ src := by
  induction src generalizing w with
  | nil => simp [write_all]
  | cons e rest ih => simp [write_all, ih]

theorem sort_insert_perm {α : Type} (comp : α → α → Bool) (x : α) (l : List α) :
    List.Perm (sort_insert comp x l) (x :: l) := by
  induction l with
  | nil => exact List.Perm.refl _
  | cons y ys ih =>
    unfold sort_insert
    split
    · exact List.Perm.refl _
    · exact (List.Perm.cons y ih).trans (List.Perm.swap x y ys)

theorem std_sort_perm {α : Type} (comp : α → α → Bool) (l : List α) :
    List.Perm (std_sort comp l) l := by
  induction l with
  | nil => exact List.Perm.refl _
  | cons x xs ih =>
    unfold std_sort
    exact (sort_insert_perm comp x _).trans (List.Perm.cons x ih)

theorem sort_insert_sorted {α : Type} (h : α → Nat) (x : α) (l : List α)
    (hl : List.Pairwise (fun a b => h a ≤ h b) l) :
    List.Pairwise (fun a b => h a ≤ h b) (sort_insert (fun a b => decide (h a < h b)) x l) := by
  induction l with
  | nil => simp [sort_insert]
  | cons y ys ih =>
    rw [List.pairwise_cons] at hl
    unfold sort_insert
    by_cases hxy : h x < h y
    · simp only [hxy, decide_True, if_true]
      refine List.pairwise_cons.mpr ⟨?_, List.pairwise_cons.mpr hl⟩
      intro z hz
      rcases List.mem_cons.mp hz with rfl | hz
      · omega
      · have := hl.1 z hz
        omega
    · simp only [hxy, decide_False, Bool.false_eq_true, if_false]
      refine List.pairwise_cons.mpr ⟨?_, ih hl.2⟩
      intro z hz
      rcases List.mem_cons.mp ((sort_insert_perm _ x ys).mem_iff.mp hz) with rfl | hz
      · omega
      · exact hl.1 z hz

theorem std_sort_sorted {α : Type} (h : α → Nat) (l : List α) :
    List.Pairwise (fun a b => h a ≤ h b) (std_sort (fun a b => decide (h a < h b)) l) := by
  induction l with
  | nil => simp [std_sort]
  | cons x xs ih =>
    unfold std_sort
    exact sort_insert_sorted h x _ ih

theorem pop_min_none {α : Type} (comp : α → α → Bool) (rs : List (List α))
    (h : pop_min comp rs = none) : rs.flatten = [] := by
  induction rs with
  | nil => rfl
  | cons r rs ih =>
    cases r with
    | nil =>
      unfold pop_min at h
      split at h
      · next h0 => simpa using ih h0
      · cases h
    | cons a as =>
      unfold pop_min at h
      split at h
      · cases h
      · split at h <;> cases h

theorem pop_min_perm {α : Type} (comp : α → α → Bool) (rs rs' : List (List α)) (x : α)
    (h : pop_min comp rs = some (x, rs')) : List.Perm rs.flatten (x :: rs'.flatten) := by
  induction rs generalizing rs' x with
  | nil => simp [pop_min] at h
  | cons r rs ih =>
    cases r with
    | nil =>
      unfold pop_min at h
      split at h
      · cases h
      · next b t h0 =>
        cases h
        simpa using ih _ _ h0
    | cons a as =>
      unfold pop_min at h
      split at h
      · cases h
        simp
      · next b t h0 =>
        split at h
        · cases h
          have := ih _ _ h0
          simp only [List.flatten_cons, List.cons_append]
          exact ((List.Perm.append_left as this).cons a).trans
            ((List.Perm.cons a List.perm_middle).trans (List.Perm.swap x a _))
        · cases h
          simp

theorem pop_min_sorted {α : Type} (h : α → Nat) (rs rs' : List (List α)) (x : α)
    (hs : ∀ r ∈ rs, List.Pairwise (fun a b => h a ≤ h b) r)
    (hp : pop_min (fun a b => decide (h a < h b)) rs = some (x, rs')) :
    (∀ r ∈ rs', List.Pairwise (fun a b => h a ≤ h b) r) ∧ ∀ y ∈ rs.flatten, h x ≤ h y := by
  induction rs generalizing rs' x with
  | nil => simp [pop_min] at hp
  | cons r rs ih =>
    have hs' : ∀ r ∈ rs, List.Pairwise (fun a b => h a ≤ h b) r :=
      fun r hr => hs r (List.mem_cons_of_mem _ hr)
    cases r with
    | nil =>
      unfold pop_min at hp
      split at hp
      · cases hp
      · next b t h0 =>
        cases hp
        have := ih _ _ hs' h0
        refine ⟨?_, by simpa using this.2⟩
        intro r hr
        rcases List.mem_cons.mp hr with rfl | hr
        · exact List.Pairwise.nil
        · exact this.1 r hr
    | cons a as =>
      have ha := List.pairwise_cons.mp (hs (a :: as) (List.mem_cons_self _ _))
      unfold pop_min at hp
      split at hp
      · next h0 =>
        cases hp
        have hnil := pop_min_none _ _ h0
        refine ⟨?_, ?_⟩
        · intro r hr
          rcases List.mem_cons.mp hr with rfl | hr
          · exact ha.2
          · exact hs' r hr
        · intro y hy
          simp only [List.flatten_cons, hnil, List.append_nil] at hy
          rcases List.mem_cons.mp hy with rfl | hy
          · exact Nat.le_refl _
          · exact ha.1 y hy
      · next b t h0 =>
        have hi := ih _ _ hs' h0
        by_cases hba : h b < h a
        · simp only [hba, decide_True, if_true] at hp
          cases hp
          refine ⟨?_, ?_⟩
          · intro r hr
            rcases List.mem_cons.mp hr with rfl | hr
            · exact hs _ (List.mem_cons_self _ _)
            · exact hi.1 r hr
          · intro y hy
            simp only [List.flatten_cons, List.mem_append, List.mem_cons] at hy
            rcases hy with (rfl | hy) | hy
            · omega
            · have := ha.1 y hy
              omega
            · exact hi.2 y hy
        · simp only [hba, decide_False, Bool.false_eq_true, if_false] at hp
          cases hp
          refine ⟨?_, ?_⟩
          · intro r hr
            rcases List.mem_cons.mp hr with rfl | hr
            · exact ha.2
            · exact hs' r hr
          · intro y hy
            simp only [List.flatten_cons, List.mem_append, List.mem_cons] at hy
            rcases hy with (rfl | hy) | hy
            · exact Nat.le_refl _
            · exact ha.1 y hy
            · have := hi.2 y hy
              omega

theorem multiway_merge_perm {α : Type} (comp : α → α → Bool) (n : Nat) (seq : List (List α))
    (hn : seq.flatten.length = n) :
    List.Perm (sequential_file_multiway_merge comp seq n) seq.flatten := by
  induction n generalizing seq with
  | zero =>
    rw [List.length_eq_zero.mp hn]
    simp [sequential_file_multiway_merge]
  | succ n ih =>
    unfold sequential_file_multiway_merge
    split
    · next h0 =>
      rw [pop_min_none _ _ h0] at hn
      simp at hn
    · next x seq' h0 =>
      have hp := pop_min_perm _ _ _ _ h0
      have hlen : seq'.flatten.length = n := by
        have := hp.length_eq
        simp only [List.length_cons] at this
        omega
      exact (List.Perm.cons x (ih seq' hlen)).trans hp.symm

theorem multiway_merge_subset {α : Type} (comp : α → α → Bool) (n : Nat) (seq : List (List α)) :
    ∀ y ∈ sequential_file_multiway_merge comp seq n, y ∈ seq.flatten := by
  induction n generalizing seq with
  | zero => simp [sequential_file_multiway_merge]
  | succ n ih =>
    unfold sequential_file_multiway_merge
    split
    · simp
    · next x seq' h0 =>
      have hp := pop_min_perm _ _ _ _ h0
      intro y hy
      rcases List.mem_cons.mp hy with rfl | hy
      · exact hp.mem_iff.mpr (List.mem_cons_self _ _)
      · exact hp.mem_iff.mpr (List.mem_cons_of_mem _ (ih seq' y hy))

theorem multiway_merge_sorted {α : Type} (h : α → Nat) (n : Nat) (seq : List (List α))
    (hs : ∀ r ∈ seq, List.Pairwise (fun a b => h a ≤ h b) r) :
    List.Pairwise (fun a b => h a ≤ h b)
      (sequential_file_multiway_merge (fun a b => decide (h a < h b)) seq n) := by
  induction n generalizing seq with
  | zero => simp [sequential_file_multiway_merge]
  | succ n ih =>
    unfold sequential_file_multiway_merge
    split
    · exact List.Pairwise.nil
    · next x seq' h0 =>
      have hp := pop_min_perm _ _ _ _ h0
      have hsrt := pop_min_sorted h _ _ _ hs h0
      refine List.pairwise_cons.mpr ⟨?_, ih seq' hsrt.1⟩
      intro y hy
      have h1 := multiway_merge_subset _ n seq' y hy
      exact hsrt.2 y (hp.mem_iff.mpr (List.mem_cons_of_mem _ h1))


/-! ## The receive and merge phase -/

theorem record_comparator_eq (node : GroupByIndexNode ValueIn ValueOut) :
    record_comparator node = fun a b =>
      decide (comparison_key node a < comparison_key node b) := rfl

theorem FlushVectorToFile_eq (node : GroupByIndexNode ValueIn ValueOut) (v : List ValueIn) :
    FlushVectorToFile node v =
      { node with files_ := node.files_ ++ [std_sort (record_comparator node) v] } := by
  simp [FlushVectorToFile, write_all_eq]

theorem receive_loop_spec (cap : Nat) (input : List ValueIn)
    (node : GroupByIndexNode ValueIn ValueOut) (incoming : List ValueIn) (total : Nat) :
    ∃ fs inc, receive_loop cap ⟨node, incoming, total⟩ input =
        ⟨{ node with files_ := node.files_ ++ fs }, inc, total + fs.flatten.length⟩ ∧
      List.Perm (fs.flatten ++ inc) (incoming ++ input) ∧
      ∀ f ∈ fs, List.Pairwise (fun a b => comparison_key node a ≤ comparison_key node b) f := by
  induction input generalizing node incoming total with
  | nil =>
    refine ⟨[], incoming, ?_, ?_, ?_⟩
    · simp [receive_loop]
    · simp
    · simp
  | cons elem reader ih =>
    unfold receive_loop
    by_cases hfull : incoming.length = cap
    · simp only [hfull, if_true]
      rw [FlushVectorToFile_eq]
      obtain ⟨fs, inc, heq, hperm, hsrt⟩ :=
        ih { node with files_ := node.files_ ++ [std_sort (record_comparator node) incoming] }
          ([] ++ [elem]) (total + cap)
      refine ⟨std_sort (record_comparator node) incoming :: fs, inc, ?_, ?_, ?_⟩
      · rw [heq]
        have hl : (std_sort (record_comparator node) incoming).length = cap := by
          rw [(std_sort_perm _ _).length_eq, hfull]
        simp [hl, Nat.add_assoc]
      · simp only [List.flatten_cons, List.append_assoc]
        refine List.Perm.append (std_sort_perm _ _) ?_
        simpa using hperm
      · intro f hf
        rcases List.mem_cons.mp hf with rfl | hf
        · rw [record_comparator_eq]
          exact std_sort_sorted _ _
        · exact hsrt f hf
    · simp only [hfull, if_false]
      obtain ⟨fs, inc, heq, hperm, hsrt⟩ := ih node (incoming ++ [elem]) total
      refine ⟨fs, inc, heq, ?_, hsrt⟩
      simpa using hperm

theorem spill_phase_spec (node : GroupByIndexNode ValueIn ValueOut) (cap : Nat)
    (channel : List ValueIn) :
    ∃ runs, spill_phase node cap channel =
        ⟨{ node with files_ := node.files_ ++ runs }, [], runs.flatten.length⟩ ∧
      runs ≠ [] ∧
      List.Perm runs.flatten channel ∧
      ∀ f ∈ runs, List.Pairwise (fun a b => comparison_key node a ≤ comparison_key node b) f := by
  obtain ⟨fs, inc, heq, hperm, hsrt⟩ := receive_loop_spec cap channel node [] 0
  refine ⟨fs ++ [std_sort (record_comparator node) inc], ?_, by simp, ?_, ?_⟩
  · unfold spill_phase
    simp only [heq]
    rw [FlushVectorToFile_eq]
    simp [(std_sort_perm (record_comparator node) inc).length_eq]
    rfl
  · simp only [List.flatten_append, List.flatten_cons, List.flatten_nil, List.append_nil]
    refine (List.Perm.append_left _ (std_sort_perm _ _)).trans ?_
    simpa using hperm
  · intro f hf
    rcases List.mem_append.mp hf with hf | hf
    · exact hsrt f hf
    · rw [List.mem_singleton.mp hf, record_comparator_eq]
      exact std_sort_sorted _ _


theorem MainOp_spec (node : GroupByIndexNode ValueIn ValueOut) (cap : Nat)
    (channel : List ValueIn) (hf : node.files_ = []) (hs : node.sorted_elems_ = []) :
    ∃ runs, (spill_phase node cap channel).node.files_ = runs ∧
      (MainOp node cap channel).files_ = runs ∧
      (spill_phase node cap channel).totalsize = runs.flatten.length ∧
      List.Perm runs.flatten channel ∧
      (∀ f ∈ runs, List.Pairwise (fun a b => comparison_key node a ≤ comparison_key node b) f) ∧
      ((∃ run, runs = [run] ∧ (MainOp node cap channel).sorted_elems_ = run) ∨
       ((∀ run, runs ≠ [run]) ∧ (MainOp node cap channel).sorted_elems_ =
          sequential_file_multiway_merge (record_comparator node) runs runs.flatten.length)) := by
  obtain ⟨runs, heq, hne, hperm, hsrt⟩ := spill_phase_spec node cap channel
  refine ⟨runs, by simp [heq, hf], ?_, by simp [heq], hperm, hsrt, ?_⟩
  · unfold MainOp
    simp only [heq, hf, List.nil_append]
    split <;> rfl
  · rcases runs with _ | ⟨run, _ | ⟨r2, rest⟩⟩
    · exact absurd rfl hne
    · left
      refine ⟨run, rfl, ?_⟩
      unfold MainOp
      simp only [heq, hf, hs, List.nil_append]
      simp [write_all_eq]
    · right
      refine ⟨fun run hr => by simp at hr, ?_⟩
      unfold MainOp
      simp only [heq, hf, hs, List.nil_append]
      simp [write_all_eq]
      rfl


/-- C7: for a freshly constructed node (no run stored, empty output file), every
capacity `FIXED_VECTOR_SIZE` and every sequence of records read from the
channel, the sorted output file written by `MainOp`, whether through the
single-run copy or through the multiway merge, is a permutation of that
sequence: every received record appears in it exactly once. -/
theorem MainOp_sorted_elems_perm (node : GroupByIndexNode ValueIn ValueOut) (cap : Nat)
    (channel : List ValueIn) (hf : node.files_ = []) (hs : node.sorted_elems_ = []) :
    List.Perm (MainOp node cap channel).sorted_elems_ channel := by
  obtain ⟨runs, -, -, -, hperm, -, hout⟩ := MainOp_spec node cap channel hf hs
  rcases hout with ⟨run, rfl, hrun⟩ | ⟨-, hmerge⟩
  · rw [hrun]
    simpa using hperm
  · rw [hmerge]
    exact (multiway_merge_perm _ _ runs rfl).trans hperm

theorem MainOp_sorted_elems_perm_witness :
    (countNode 10 1 0 []).files_ = [] ∧ (countNode 10 1 0 []).sorted_elems_ = [] ∧
    List.Perm (MainOp (countNode 10 1 0 []) 3 [7, 4, 1, 8, 5, 2, 9, 6, 3]).sorted_elems_
      [7, 4, 1, 8, 5, 2, 9, 6, 3] :=
  ⟨rfl, rfl, MainOp_sorted_elems_perm (countNode 10 1 0 []) 3 [7, 4, 1, 8, 5, 2, 9, 6, 3] rfl rfl⟩

theorem MainOp_sorted_by_comparison_key (node : GroupByIndexNode ValueIn ValueOut) (cap : Nat)
    (channel : List ValueIn) (hf : node.files_ = []) (hs : node.sorted_elems_ = []) :
    List.Pairwise (fun a b => comparison_key node a ≤ comparison_key node b)
      (MainOp node cap channel).sorted_elems_ := by
  obtain ⟨runs, -, -, -, -, hsrt, hout⟩ := MainOp_spec node cap channel hf hs
  rcases hout with ⟨run, rfl, hrun⟩ | ⟨-, hmerge⟩
  · rw [hrun]
    exact hsrt run (List.mem_singleton.mpr rfl)
  · rw [hmerge, record_comparator_eq]
    exact multiway_merge_sorted _ _ runs hsrt

theorem not_before_of_comparison_key_le (node : GroupByIndexNode ValueIn ValueOut)
    (a b : ValueIn) (hab : comparison_key node a ≤ comparison_key node b) :
    ValueComparator node (node.to_ValueType b) (node.to_ValueType a) = false := by
  unfold comparison_key at hab
  simp only [ValueComparator, decide_eq_false_iff_not, Nat.not_lt]
  exact hab

/-- C8: for a freshly constructed node, every capacity and every sequence of
received records (hence one, two or more runs), the sorted output file written
by `MainOp` is ordered by the node's comparator: no record is followed, at any
distance, by a record that `ValueComparator`, called on the two records as
`std::sort` and the merge call it (each converted to its parameter type
`ValueType`), places strictly before it.  With numeric keys and capacity 3 the
input `1,4,7,2,5,8,3,6,9` is spilled as the runs `[[1,4,7],[2,5,8],[3,6,9]]`,
and their merge is `1,2,...,9`; the same output results from two runs
(capacity 5) and from one run (capacity 9).  With an 8-bit `ValueType` the
records `1, 256` are written as `256, 1`, the order of their converted
values. -/
theorem MainOp_sorted_elems_ordered (node : GroupByIndexNode ValueIn ValueOut) (cap : Nat)
    (channel : List ValueIn) (hf : node.files_ = []) (hs : node.sorted_elems_ = []) :
    List.Pairwise
      (fun a b => ValueComparator node (node.to_ValueType b) (node.to_ValueType a) = false)
      (MainOp node cap channel).sorted_elems_ ∧
    (MainOp (countNode 10 1 0 []) 3 [1, 4, 7, 2, 5, 8, 3, 6, 9]).files_
      = [[1, 4, 7], [2, 5, 8], [3, 6, 9]] ∧
    sequential_file_multiway_merge (record_comparator (countNode 10 1 0 []))
      [[1, 4, 7], [2, 5, 8], [3, 6, 9]] 9 = [1, 2, 3, 4, 5, 6, 7, 8, 9] ∧
    (MainOp (countNode 10 1 0 []) 3 [1, 4, 7, 2, 5, 8, 3, 6, 9]).sorted_elems_
      = [1, 2, 3, 4, 5, 6, 7, 8, 9] ∧
    (MainOp (countNode 10 1 0 []) 5 [1, 4, 7, 2, 5, 8, 3, 6, 9]).files_
      = [[1, 2, 4, 5, 7], [3, 6, 8, 9]] ∧
    (MainOp (countNode 10 1 0 []) 5 [1, 4, 7, 2, 5, 8, 3, 6, 9]).sorted_elems_
      = [1, 2, 3, 4, 5, 6, 7, 8, 9] ∧
    (MainOp (countNode 10 1 0 []) 9 [1, 4, 7, 2, 5, 8, 3, 6, 9]).files_
      = [[1, 2, 3, 4, 5, 6, 7, 8, 9]] ∧
    (MainOp (countNode 10 1 0 []) 9 [1, 4, 7, 2, 5, 8, 3, 6, 9]).sorted_elems_
      = [1, 2, 3, 4, 5, 6, 7, 8, 9] ∧
    (MainOp narrowNode 5 [1, 256]).sorted_elems_ = [256, 1] ∧
    (MainOp narrowNode 1 [1, 256]).sorted_elems_ = [256, 1] := by
  refine ⟨?_, by decide, by decide, by decide, by decide, by decide, by decide, by decide,
    by decide, by decide⟩
  refine (MainOp_sorted_by_comparison_key node cap channel hf hs).imp ?_
  intro a b hab
  exact not_before_of_comparison_key_le node a b hab

theorem MainOp_sorted_elems_ordered_witness :
    List.Pairwise
      (fun a b => ValueComparator (countNode 10 1 0 [])
        ((countNode 10 1 0 []).to_ValueType b) ((countNode 10 1 0 []).to_ValueType a) = false)
      (MainOp (countNode 10 1 0 []) 3 [7, 4, 1, 8, 5, 2, 9, 6, 3]).sorted_elems_ :=
  (MainOp_sorted_elems_ordered (countNode 10 1 0 []) 3 [7, 4, 1, 8, 5, 2, 9, 6, 3] rfl rfl).1

/-- C9 as stated fails: with the hash function `k ↦ 9 - k` the buffer `[1, 2]`
is written as the run `[2, 1]`, whose keys decrease.  It also fails with the
identity as hash function when the conversion to `ValueType` changes the key:
with an 8-bit `ValueType` the buffer `[1, 256]` is written as `[256, 1]`. -/
theorem FlushVectorToFile_run_not_sorted_by_key :
    (FlushVectorToFile descHashNode [1, 2]).files_ = [[2, 1]] ∧
    ¬ List.Pairwise (fun a b => descHashNode.key_extractor_ a ≤ descHashNode.key_extractor_ b)
      [2, 1] ∧
    (FlushVectorToFile narrowNode [1, 256]).files_ = [[256, 1]] ∧
    ¬ List.Pairwise (fun a b => narrowNode.key_extractor_ a ≤ narrowNode.key_extractor_ b)
      [256, 1] := by
  refine ⟨by decide, ?_, by decide, ?_⟩
  · intro h
    have := (List.pairwise_cons.mp h).1 1 (List.mem_singleton.mpr rfl)
    exact absurd this (by decide)
  · intro h
    have := (List.pairwise_cons.mp h).1 1 (List.mem_singleton.mpr rfl)
    exact absurd this (by decide)

/-- C9 (amended): for every buffer of records, every key extractor and every
hash function the node is built with, the run `FlushVectorToFile` appends to
`files_` holds the records of the buffer in an order in which the node's
comparator, called as `std::sort` calls it, places no record before an earlier
one.  When converting a record to `ValueType` and back leaves its key unchanged
(as when `ValueType` and `ValueIn` coincide), the run is sorted by the hash of
the key: `hash_function_ (key_extractor_ record)` is non-decreasing along the
run; when in addition the hash function is strictly increasing, the extracted
keys themselves are non-decreasing. -/
theorem FlushVectorToFile_run_sorted_by_hash (node : GroupByIndexNode ValueIn ValueOut)
    (v : List ValueIn) :
    ∃ run, (FlushVectorToFile node v).files_ = node.files_ ++ [run] ∧
      List.Perm run v ∧
      List.Pairwise
        (fun a b => ValueComparator node (node.to_ValueType b) (node.to_ValueType a) = false)
        run ∧
      ((∀ x, node.key_extractor_ (node.to_ValueIn (node.to_ValueType x))
          = node.key_extractor_ x) →
        List.Pairwise (fun a b => node.hash_function_ (node.key_extractor_ a)
          ≤ node.hash_function_ (node.key_extractor_ b)) run) ∧
      ((∀ x, node.key_extractor_ (node.to_ValueIn (node.to_ValueType x))
          = node.key_extractor_ x) →
        (∀ k1 k2, k1 < k2 → node.hash_function_ k1 < node.hash_function_ k2) →
        List.Pairwise (fun a b => node.key_extractor_ a ≤ node.key_extractor_ b) run) := by
  have hs : List.Pairwise (fun a b => comparison_key node a ≤ comparison_key node b)
      (std_sort (record_comparator node) v) := by
    rw [record_comparator_eq]
    exact std_sort_sorted _ _
  refine ⟨std_sort (record_comparator node) v, by rw [FlushVectorToFile_eq],
    std_sort_perm _ _, ?_, ?_, ?_⟩
  · exact hs.imp (fun {a b} hab => not_before_of_comparison_key_le node a b hab)
  · intro hconv
    refine hs.imp ?_
    intro a b hab
    unfold comparison_key at hab
    rw [hconv a, hconv b] at hab
    exact hab
  · intro hconv hmono
    refine hs.imp ?_
    intro a b hab
    unfold comparison_key at hab
    rw [hconv a, hconv b] at hab
    by_contra hlt
    have := hmono _ _ (Nat.lt_of_not_le hlt)
    omega

theorem FlushVectorToFile_run_sorted_by_hash_witness :
    ∃ run, (FlushVectorToFile (countNode 10 1 0 []) [3, 1, 2]).files_
        = (countNode 10 1 0 []).files_ ++ [run] ∧
      List.Perm run [3, 1, 2] ∧
      List.Pairwise (fun a b =>
        (countNode 10 1 0 []).hash_function_ ((countNode 10 1 0 []).key_extractor_ a)
        ≤ (countNode 10 1 0 []).hash_function_ ((countNode 10 1 0 []).key_extractor_ b)) run ∧
      List.Pairwise (fun a b => (countNode 10 1 0 []).key_extractor_ a
        ≤ (countNode 10 1 0 []).key_extractor_ b) run := by
  obtain ⟨run, h1, h2, -, h4, h5⟩ :=
    FlushVectorToFile_run_sorted_by_hash (countNode 10 1 0 []) [3, 1, 2]
  exact ⟨run, h1, h2, h4 (fun _ => rfl), h5 (fun _ => rfl) (fun k1 k2 h => h)⟩

/-- C10: when the receive phase of `MainOp` on a freshly constructed node ends
with exactly one run in `files_`, the sorted output file is that run copied
verbatim, the same records in the same order, and `files_` still holds just
that run. -/
theorem MainOp_single_run_verbatim (node : GroupByIndexNode ValueIn ValueOut) (cap : Nat)
    (channel run : List ValueIn) (hf : node.files_ = []) (hs : node.sorted_elems_ = [])
    (hrun : (spill_phase node cap channel).node.files_ = [run]) :
    (MainOp node cap channel).sorted_elems_ = run ∧ (MainOp node cap channel).files_ = [run] := by
  obtain ⟨runs, h1, h2, -, -, -, hout⟩ := MainOp_spec node cap channel hf hs
  rw [hrun] at h1
  subst h1
  refine ⟨?_, h2⟩
  rcases hout with ⟨run', hr, hrun'⟩ | ⟨hnot, -⟩
  · rw [hrun']
    exact (List.cons.inj hr).1.symm
  · exact absurd rfl (hnot run)

theorem MainOp_single_run_verbatim_witness :
    (spill_phase (countNode 10 1 0 []) 30 [7, 4, 1, 8]).node.files_ = [[1, 4, 7, 8]] ∧
    (MainOp (countNode 10 1 0 []) 30 [7, 4, 1, 8]).sorted_elems_ = [1, 4, 7, 8] ∧
    (MainOp (countNode 10 1 0 []) 30 [7, 4, 1, 8]).files_ = [[1, 4, 7, 8]] :=
  ⟨by decide, MainOp_single_run_verbatim (countNode 10 1 0 []) 30 [7, 4, 1, 8] [1, 4, 7, 8]
    rfl rfl (by decide)⟩


/-! ## The grouping driver -/

theorem sorted_takeWhile_dropWhile (K : ValueIn → Nat) (c : Nat) (it : List ValueIn)
    (hs : List.Pairwise (fun a b => K a ≤ K b) it) (hge : ∀ r ∈ it, c ≤ K r) :
    it.takeWhile (fun r => K r == c) = it.filter (fun r => K r == c) ∧
    it.dropWhile (fun r => K r == c) = it.filter (fun r => K r != c) := by
  induction it with
  | nil => simp
  | cons r t ih =>
    rw [List.pairwise_cons] at hs
    have iht := ih hs.2 (fun x hx => hge x (List.mem_cons_of_mem _ hx))
    by_cases hr : K r = c
    · simp [List.takeWhile_cons, List.dropWhile_cons, List.filter_cons, hr, iht.1, iht.2]
    · have hgt : ∀ x ∈ t, K x ≠ c := by
        intro x hx
        have h1 := hs.1 x hx
        have h2 := hge r (List.mem_cons_self _ _)
        omega
      have hnil : t.filter (fun r => K r == c) = [] := by
        rw [List.filter_eq_nil_iff]
        intro x hx
        simpa using hgt x hx
      have hall : t.filter (fun r => K r != c) = t := by
        rw [List.filter_eq_self]
        intro x hx
        simpa using hgt x hx
      simp [List.takeWhile_cons, List.dropWhile_cons, List.filter_cons, hr, hnil, hall]


theorem expected_emission_congr (node : GroupByIndexNode ValueIn ValueOut)
    (f : List ValueIn → Nat → ValueOut) (it : List ValueIn) (c i : Nat) (hi : c < i) :
    expected_emission node f (it.filter (fun r => node.key_extractor_ r != c)) i
      = expected_emission node f it i := by
  have h1 : (it.filter (fun r => node.key_extractor_ r != c)).any
      (fun r => node.key_extractor_ r == i) = it.any (fun r => node.key_extractor_ r == i) := by
    rw [Bool.eq_iff_iff]
    simp only [List.any_eq_true, List.mem_filter, beq_iff_eq, bne_iff_ne, ne_eq]
    constructor
    · rintro ⟨x, ⟨hx, -⟩, hxi⟩
      exact ⟨x, hx, hxi⟩
    · rintro ⟨x, hx, hxi⟩
      exact ⟨x, ⟨hx, by omega⟩, hxi⟩
  have h2 : (it.filter (fun r => node.key_extractor_ r != c)).filter
      (fun r => decide (i ≤ node.key_extractor_ r))
      = it.filter (fun r => decide (i ≤ node.key_extractor_ r)) := by
    rw [List.filter_filter]
    apply List.filter_congr
    intro x _
    by_cases hx : i ≤ node.key_extractor_ x
    · have : node.key_extractor_ x ≠ c := by omega
      simp [hx, this]
    · simp [hx]
  have h3 : (it.filter (fun r => node.key_extractor_ r != c)).filter
      (fun r => node.key_extractor_ r == i)
      = it.filter (fun r => node.key_extractor_ r == i) := by
    rw [List.filter_filter]
    apply List.filter_congr
    intro x _
    by_cases hx : node.key_extractor_ x = i
    · have : i ≠ c := by omega
      simp [hx, this]
    · simp [hx]
  unfold expected_emission
  rw [h1, h2, h3]

theorem push_loop_spec (node : GroupByIndexNode ValueIn ValueOut)
    (f : List ValueIn → Nat → ValueOut)
    (hg : ConsumesRun node f) :
    ∀ (fuel : Nat) (it : List ValueIn) (c m : Nat), it ≠ [] →
      List.Pairwise (fun a b => node.key_extractor_ a ≤ node.key_extractor_ b) it →
      (∀ r ∈ it, c ≤ node.key_extractor_ r) → (∀ r ∈ it, node.key_extractor_ r ≤ m) →
      (∃ r ∈ it, node.key_extractor_ r = m) → m < SIZE_MOD → m - c + 1 ≤ fuel →
      push_loop node fuel it c
        = Except.ok ((List.range' c (m - c + 1)).map (expected_emission node f it)) := by
  intro fuel
  induction fuel with
  | zero =>
    intro it c m _ _ _ _ _ _ hfuel
    omega
  | succ fuel ih =>
    intro it c m hne hs hge hle hm hM hfuel
    obtain ⟨r, rest, rfl⟩ := List.exists_cons_of_ne_nil hne
    have hrc := hge r (List.mem_cons_self _ _)
    have hrm := hle r (List.mem_cons_self _ _)
    have hrange : List.range' c (m - c + 1) = c :: List.range' (c + 1) (m - c) :=
      List.range'_succ c (m - c) 1
    rw [hrange, List.map_cons]
    simp only [push_loop]
    by_cases hk : node.key_extractor_ r = c
    · subst hk
      obtain ⟨htw, hdw⟩ := sorted_takeWhile_dropWhile node.key_extractor_
        (node.key_extractor_ r) (r :: rest) hs hge
      simp only [ne_eq, not_true_eq_false, if_false]
      rw [hg r rest]
      simp only []
      have hfirst : expected_emission node f (r :: rest) (node.key_extractor_ r)
          = Emission.grouped (r :: rest) (node.key_extractor_ r)
            (f ((r :: rest).takeWhile
              (fun x => node.key_extractor_ x == node.key_extractor_ r))
              (node.key_extractor_ r)) := by
        have hany : (r :: rest).any (fun x => node.key_extractor_ x == node.key_extractor_ r)
            = true := by
          simp
        have hall : (r :: rest).filter
            (fun x => decide (node.key_extractor_ r ≤ node.key_extractor_ x)) = r :: rest := by
          rw [List.filter_eq_self]
          intro x hx
          simpa using hge x hx
        unfold expected_emission
        rw [hany, hall, htw]
        rfl
      rw [hfirst, hdw]
      by_cases hempty : (r :: rest).filter
          (fun x => node.key_extractor_ x != node.key_extractor_ r) = []
      · rw [hempty]
        have hmk : m = node.key_extractor_ r := by
          obtain ⟨r0, hr0, hr0m⟩ := hm
          have := List.filter_eq_nil_iff.mp hempty r0 hr0
          simp at this
          omega
        subst hmk
        simp [push_loop, Except.map]
      · have hmem : ∀ x ∈ (r :: rest).filter
            (fun x => node.key_extractor_ x != node.key_extractor_ r),
            x ∈ r :: rest ∧ node.key_extractor_ r + 1 ≤ node.key_extractor_ x := by
          intro x hx
          rw [List.mem_filter] at hx
          have h1 := hge x hx.1
          have h2 : node.key_extractor_ x ≠ node.key_extractor_ r := by simpa using hx.2
          exact ⟨hx.1, by omega⟩
        obtain ⟨x0, hx0⟩ := List.exists_mem_of_ne_nil _ hempty
        have hx0' := hmem x0 hx0
        have hx0m := hle x0 hx0'.1
        have hmod : (node.key_extractor_ r + 1) % SIZE_MOD = node.key_extractor_ r + 1 :=
          Nat.mod_eq_of_lt (by omega)
        rw [hmod, ih _ (node.key_extractor_ r + 1) m hempty (hs.filter _)
          (fun x hx => (hmem x hx).2) (fun x hx => hle x (hmem x hx).1) ?_ hM (by omega)]
        · simp only [Except.map]
          have hsub : m - (node.key_extractor_ r + 1) + 1 = m - node.key_extractor_ r := by
            omega
          rw [hsub]
          congr 2
          apply List.map_congr_left
          intro i hi
          rw [List.mem_range'_1] at hi
          exact expected_emission_congr node f (r :: rest) (node.key_extractor_ r) i (by omega)
        · obtain ⟨r0, hr0, hr0m⟩ := hm
          refine ⟨r0, ?_, hr0m⟩
          rw [List.mem_filter]
          refine ⟨hr0, ?_⟩
          have : node.key_extractor_ r0 ≠ node.key_extractor_ r := by omega
          simpa using this
    · have hlt : c < node.key_extractor_ r := by omega
      have hmod : (c + 1) % SIZE_MOD = c + 1 := Nat.mod_eq_of_lt (by omega)
      simp only [ne_eq, hk, not_false_eq_true, if_true]
      have hgt : ∀ x ∈ r :: rest, c + 1 ≤ node.key_extractor_ x := by
        intro x hx
        rcases List.mem_cons.mp hx with rfl | hx
        · omega
        · have := (List.pairwise_cons.mp hs).1 x hx
          omega
      rw [hmod, ih (r :: rest) (c + 1) m hne hs hgt hle hm hM (by omega)]
      have hsub : m - (c + 1) + 1 = m - c := by omega
      have hfirst : expected_emission node f (r :: rest) c
          = Emission.neutral node.neutral_element_ := by
        have hany : (r :: rest).any (fun x => node.key_extractor_ x == c) = false := by
          rw [Bool.eq_false_iff]
          intro h
          obtain ⟨x, hx, hxc⟩ := List.any_eq_true.mp h
          have := hgt x hx
          have : node.key_extractor_ x = c := by simpa using hxc
          omega
        unfold expected_emission
        rw [hany]
        rfl
      rw [hsub, hfirst]
      rfl


theorem PushData_trace_spec (node : GroupByIndexNode ValueIn ValueOut)
    (f : List ValueIn → Nat → ValueOut) (m : Nat)
    (hw : 1 ≤ node.emitter_.length)
    (hstart : keyspace node.number_keys_ node.emitter_.length * node.my_rank < SIZE_MOD)
    (hM : m < SIZE_MOD)
    (hsorted : List.Pairwise (fun a b => node.key_extractor_ a ≤ node.key_extractor_ b)
      node.sorted_elems_)
    (hge : ∀ r ∈ node.sorted_elems_,
      keyspace node.number_keys_ node.emitter_.length * node.my_rank ≤ node.key_extractor_ r)
    (hle : ∀ r ∈ node.sorted_elems_, node.key_extractor_ r ≤ m)
    (hm : ∃ r ∈ node.sorted_elems_, node.key_extractor_ r = m)
    (hg : ConsumesRun node f) (fuel : Nat)
    (hfuel : m - keyspace node.number_keys_ node.emitter_.length * node.my_rank + 1 ≤ fuel) :
    PushData node fuel = Except.ok
      ((List.range' (keyspace node.number_keys_ node.emitter_.length * node.my_rank)
        (m - keyspace node.number_keys_ node.emitter_.length * node.my_rank + 1)).map
        (expected_emission node f node.sorted_elems_)) := by
  have hne : node.sorted_elems_ ≠ [] := by
    obtain ⟨r, hr, -⟩ := hm
    exact List.ne_nil_of_mem hr
  have hloop := push_loop_spec node f hg fuel node.sorted_elems_ _ m hne hsorted hge hle hm hM
    hfuel
  unfold PushData
  obtain ⟨r, rest, hrr⟩ := List.exists_cons_of_ne_nil hne
  rw [hrr] at hloop ⊢
  simp only []
  rw [if_neg (by omega), Nat.mod_eq_of_lt hstart]
  exact hloop

theorem expected_emission_value (node : GroupByIndexNode ValueIn ValueOut)
    (f : List ValueIn → Nat → ValueOut) (s : List ValueIn) (i : Nat) :
    (expected_emission node f s i).value =
      if s.any (fun r => node.key_extractor_ r == i)
      then f (s.filter (fun r => node.key_extractor_ r == i)) i
      else node.neutral_element_ := by
  unfold expected_emission
  split <;> rfl

theorem expected_emission_call (node : GroupByIndexNode ValueIn ValueOut)
    (f : List ValueIn → Nat → ValueOut) (s : List ValueIn) (i : Nat) :
    (expected_emission node f s i).call.map Prod.snd =
      if s.any (fun r => node.key_extractor_ r == i) then some i else none := by
  unfold expected_emission
  split <;> rfl

/-- C4: let the sorted output file be non-empty with non-decreasing keys, all
at least `start = keyspace * my_rank` (computed without overflow) and with
largest key `m` (a `std::size_t` value), and let the grouping function consume
exactly the run of the key it is called for, with result `f run key`.  Then,
given at least `m - start + 1` iterations, `PushData` returns and pushes
downstream exactly `m - start + 1` values, one per index `start, start+1, …, m`
in this order: for index `i` the value `f` of the records with key `i` when the
stream holds such a record, and the neutral element otherwise. -/
theorem PushData_emits_dense_range (node : GroupByIndexNode ValueIn ValueOut)
    (f : List ValueIn → Nat → ValueOut) (m : Nat)
    (hw : 1 ≤ node.emitter_.length)
    (hstart : keyspace node.number_keys_ node.emitter_.length * node.my_rank < SIZE_MOD)
    (hM : m < SIZE_MOD)
    (hsorted : List.Pairwise (fun a b => node.key_extractor_ a ≤ node.key_extractor_ b)
      node.sorted_elems_)
    (hge : ∀ r ∈ node.sorted_elems_,
      keyspace node.number_keys_ node.emitter_.length * node.my_rank ≤ node.key_extractor_ r)
    (hle : ∀ r ∈ node.sorted_elems_, node.key_extractor_ r ≤ m)
    (hm : ∃ r ∈ node.sorted_elems_, node.key_extractor_ r = m)
    (hg : ConsumesRun node f) (fuel : Nat)
    (hfuel : m - keyspace node.number_keys_ node.emitter_.length * node.my_rank + 1 ≤ fuel) :
    ∃ trace, PushData node fuel = Except.ok trace ∧
      (emitted trace).length
        = m - keyspace node.number_keys_ node.emitter_.length * node.my_rank + 1 ∧
      emitted trace =
        (List.range' (keyspace node.number_keys_ node.emitter_.length * node.my_rank)
          (m - keyspace node.number_keys_ node.emitter_.length * node.my_rank + 1)).map
          (fun i =>
            if node.sorted_elems_.any (fun r => node.key_extractor_ r == i)
            then f (node.sorted_elems_.filter (fun r => node.key_extractor_ r == i)) i
            else node.neutral_element_) := by
  refine ⟨_, PushData_trace_spec node f m hw hstart hM hsorted hge hle hm hg fuel hfuel, ?_, ?_⟩
  · simp [emitted]
  · unfold emitted
    rw [List.map_map]
    apply List.map_congr_left
    intro i _
    exact expected_emission_value node f node.sorted_elems_ i

theorem PushData_emits_dense_range_witness :
    ∃ trace, PushData (countNode 10 2 1 [5, 5, 7, 9]) 5 = Except.ok trace ∧
      (emitted trace).length = 9 - keyspace 10 2 * 1 + 1 ∧
      emitted trace = [2, 0, 1, 0, 1] := by
  obtain ⟨trace, h1, h2, h3⟩ := PushData_emits_dense_range (countNode 10 2 1 [5, 5, 7, 9])
    (fun run _ => run.length) 9 (by decide) (by decide) (by decide) (by decide) (by decide)
    (by decide) (by decide) (fun _ _ => rfl) 5 (by decide)
  exact ⟨trace, h1, h2, h3.trans (by decide)⟩


/-- C5 as stated fails for worker 0: with `number_keys_ = 10`, two workers and
the records with keys `2, 2` in its sorted file, `PushData` on worker 0 pushes
the neutral element for indices 0 and 1 and the grouped result for index 2 and
then returns; it never pushes the five values neutral, neutral, grouped,
neutral, neutral, whatever the number of iterations allowed. -/
theorem PushData_worker0_stops_at_last_key :
    (PushData (countNode 10 2 0 [2, 2]) 3).map emitted = Except.ok [0, 0, 2] ∧
    (PushData (countNode 10 2 0 [2, 2]) 5).map emitted = Except.ok [0, 0, 2] ∧
    ¬ ∃ fuel, (PushData (countNode 10 2 0 [2, 2]) fuel).map emitted
      = Except.ok [0, 0, 2, 0, 0] := by
  refine ⟨rfl, rfl, ?_⟩
  rintro ⟨fuel, h⟩
  by_cases hfuel : 3 ≤ fuel
  · have hspec := PushData_trace_spec (countNode 10 2 0 [2, 2]) (fun run _ => run.length) 2
      (by decide) (by decide) (by decide) (by decide) (by decide) (by decide) (by decide)
      (fun _ _ => rfl) fuel hfuel
    have hval : (PushData (countNode 10 2 0 [2, 2]) fuel).map emitted = Except.ok [0, 0, 2] := by
      rw [hspec]
      rfl
    rw [hval] at h
    simp at h
  · have hcases : fuel = 0 ∨ fuel = 1 ∨ fuel = 2 := by omega
    have herr : (PushData (countNode 10 2 0 [2, 2]) fuel).map emitted
        = Except.error Fault.out_of_fuel := by
      rcases hcases with rfl | rfl | rfl <;> rfl
    rw [herr] at h
    cases h


/-- C5 (amended): with `number_keys_ = 10`, two workers and input records whose
keys are exactly `2, 2, 5, 9`, `PreOp` sends the records with key 2 to worker 0
and those with keys 5 and 9 to worker 1; `PushData` on worker 0 pushes the
neutral element for indices 0 and 1 and the grouped result for index 2, and
nothing more; `PushData` on worker 1 pushes the grouped result for indices 5
and 9 and the neutral element for indices 6, 7 and 8. -/
theorem PushData_index_example (node : GroupByIndexNode ValueIn ValueOut)
    (f : List ValueIn → Nat → ValueOut) (a b c d : ValueIn)
    (hn : node.number_keys_ = 10) (hw : node.emitter_.length = 2)
    (ha : node.key_extractor_ a = 2) (hb : node.key_extractor_ b = 2)
    (hc : node.key_extractor_ c = 5) (hd : node.key_extractor_ d = 9)
    (hg : ConsumesRun node f) (fuel : Nat) (hfuel : 5 ≤ fuel) :
    recipient node.number_keys_ node.emitter_.length (node.key_extractor_ a) = 0 ∧
    recipient node.number_keys_ node.emitter_.length (node.key_extractor_ b) = 0 ∧
    recipient node.number_keys_ node.emitter_.length (node.key_extractor_ c) = 1 ∧
    recipient node.number_keys_ node.emitter_.length (node.key_extractor_ d) = 1 ∧
    (PushData (at_worker node 0 [a, b]) fuel).map emitted = Except.ok
      [node.neutral_element_, node.neutral_element_, f [a, b] 2] ∧
    (PushData (at_worker node 1 [c, d]) fuel).map emitted = Except.ok
      [f [c] 5, node.neutral_element_, node.neutral_element_, node.neutral_element_,
        f [d] 9] := by
  have hks : keyspace 10 2 = 5 := by decide
  refine ⟨by rw [hn, hw, ha]; decide, by rw [hn, hw, hb]; decide, by rw [hn, hw, hc]; decide,
    by rw [hn, hw, hd]; decide, ?_, ?_⟩
  · have hspec := PushData_trace_spec (at_worker node 0 [a, b]) f 2
      (by simp [at_worker, hw]) (by simp [at_worker, SIZE_MOD]) (by simp [SIZE_MOD])
      (by simp [at_worker, ha, hb]) (by simp [at_worker]) (by simp [at_worker, ha, hb])
      ⟨a, by simp [at_worker], ha⟩ hg fuel (by simp [at_worker]; omega)
    rw [hspec]
    simp [at_worker, Except.map, emitted, expected_emission_value, List.range', ha, hb]
  · have hspec := PushData_trace_spec (at_worker node 1 [c, d]) f 9
      (by simp [at_worker, hw]) (by simp [at_worker, hn, hw, hks, SIZE_MOD]) (by simp [SIZE_MOD])
      (by simp [at_worker, hc, hd]) (by simp [at_worker, hn, hw, hks, hc, hd])
      (by simp [at_worker, hc, hd])
      ⟨d, by simp [at_worker], hd⟩ hg fuel (by simp [at_worker, hn, hw, hks]; omega)
    rw [hspec]
    simp [at_worker, Except.map, emitted, expected_emission_value, List.range', hn, hw, hks,
      hc, hd]

theorem PushData_index_example_witness :
    recipient 10 2 2 = 0 ∧ recipient 10 2 5 = 1 ∧ recipient 10 2 9 = 1 ∧
    (PushData (at_worker (countNode 10 2 0 []) 0 [2, 2]) 5).map emitted
      = Except.ok [0, 0, 2] ∧
    (PushData (at_worker (countNode 10 2 0 []) 1 [5, 9]) 5).map emitted
      = Except.ok [1, 0, 0, 0, 1] := by
  obtain ⟨h1, -, h3, h4, h5, h6⟩ := PushData_index_example (countNode 10 2 0 [])
    (fun run _ => run.length) 2 2 5 9 rfl rfl rfl rfl rfl rfl (fun _ _ => rfl) 5 (by decide)
  exact ⟨h1, h3, h4, h5, h6⟩


theorem exists_max_key (K : ValueIn → Nat) (l : List ValueIn) (hne : l ≠ []) :
    ∃ r0 ∈ l, ∀ r ∈ l, K r ≤ K r0 := by
  induction l with
  | nil => exact absurd rfl hne
  | cons x t ih =>
    by_cases ht : t = []
    · subst ht
      exact ⟨x, List.mem_singleton.mpr rfl, fun r hr => by rw [List.mem_singleton.mp hr]⟩
    · obtain ⟨r0, hr0, hmax⟩ := ih ht
      by_cases hx : K x ≤ K r0
      · refine ⟨r0, List.mem_cons_of_mem _ hr0, ?_⟩
        intro r hr
        rcases List.mem_cons.mp hr with rfl | hr
        · exact hx
        · exact hmax r hr
      · refine ⟨x, List.mem_cons_self _ _, ?_⟩
        intro r hr
        rcases List.mem_cons.mp hr with rfl | hr
        · exact Nat.le_refl _
        · have := hmax r hr
          omega

/-- C6: let the sorted output file have non-decreasing keys, all `std::size_t`
values at least `start = keyspace * my_rank` (computed without overflow), and
let the grouping function consume exactly the run of the key it is called for.
Then, given enough iterations, `PushData` returns, and the keys it passes as
second argument to the grouping function are strictly increasing in call order
(so no key is passed twice) and are exactly the keys of the records of the
stream: one call per distinct key present, none for an index without record.
Each call receives the iterator standing at a record of the key passed. -/
theorem PushData_calls_once_per_key (node : GroupByIndexNode ValueIn ValueOut)
    (f : List ValueIn → Nat → ValueOut)
    (hw : 1 ≤ node.emitter_.length)
    (hstart : keyspace node.number_keys_ node.emitter_.length * node.my_rank < SIZE_MOD)
    (hsize : ∀ r ∈ node.sorted_elems_, node.key_extractor_ r < SIZE_MOD)
    (hsorted : List.Pairwise (fun a b => node.key_extractor_ a ≤ node.key_extractor_ b)
      node.sorted_elems_)
    (hge : ∀ r ∈ node.sorted_elems_,
      keyspace node.number_keys_ node.emitter_.length * node.my_rank ≤ node.key_extractor_ r)
    (hg : ConsumesRun node f) :
    ∃ fuel0, ∀ fuel, fuel0 ≤ fuel → ∃ trace, PushData node fuel = Except.ok trace ∧
      List.Pairwise (fun k1 k2 => k1 < k2) (called_keys trace) ∧
      (∀ k, k ∈ called_keys trace ↔ ∃ r ∈ node.sorted_elems_, node.key_extractor_ r = k) ∧
      (∀ e ∈ trace, ∀ it k, e.call = some (it, k) →
        ∃ r rest, it = r :: rest ∧ node.key_extractor_ r = k) := by
  by_cases hne : node.sorted_elems_ = []
  · refine ⟨0, fun fuel _ => ⟨[], ?_, ?_, ?_, ?_⟩⟩
    · unfold PushData
      rw [hne]
    · exact List.Pairwise.nil
    · intro k
      simp [called_keys, hne]
    · intro e he
      cases he
  · obtain ⟨r0, hr0, hmax⟩ := exists_max_key node.key_extractor_ node.sorted_elems_ hne
    refine ⟨node.key_extractor_ r0
      - keyspace node.number_keys_ node.emitter_.length * node.my_rank + 1, ?_⟩
    intro fuel hfuel
    have hspec := PushData_trace_spec node f (node.key_extractor_ r0) hw hstart (hsize r0 hr0)
      hsorted hge hmax ⟨r0, hr0, rfl⟩ hg fuel hfuel
    refine ⟨_, hspec, ?_, ?_, ?_⟩
    · unfold called_keys
      rw [List.filterMap_map, List.pairwise_filterMap]
      refine (List.pairwise_lt_range' _ _).imp ?_
      intro i j hij b hb b' hb'
      simp only [Function.comp, expected_emission_call] at hb hb'
      split at hb
      · split at hb'
        · cases hb
          cases hb'
          exact hij
        · cases hb'
      · cases hb
    · intro k
      unfold called_keys
      rw [List.filterMap_map, List.mem_filterMap]
      simp only [Function.comp, expected_emission_call, List.mem_range'_1]
      constructor
      · rintro ⟨i, -, hi⟩
        split at hi
        · next hany =>
          cases hi
          obtain ⟨r, hr, hrk⟩ := List.any_eq_true.mp hany
          exact ⟨r, hr, by simpa using hrk⟩
        · cases hi
      · rintro ⟨r, hr, hrk⟩
        have h1 := hge r hr
        have h2 := hmax r hr
        refine ⟨k, by omega, ?_⟩
        have hany : node.sorted_elems_.any (fun x => node.key_extractor_ x == k) = true :=
          List.any_eq_true.mpr ⟨r, hr, by simpa using hrk⟩
        rw [if_pos hany]
    · intro e he it k hcall
      obtain ⟨i, hi, rfl⟩ := List.mem_map.mp he
      unfold expected_emission at hcall
      split at hcall
      · next hany =>
        simp only [Emission.call, Option.some.injEq, Prod.mk.injEq] at hcall
        obtain ⟨hit, rfl⟩ := hcall
        obtain ⟨r, hr, hrk⟩ := List.any_eq_true.mp hany
        have hrk' : node.key_extractor_ r = i := by simpa using hrk
        have hmem : r ∈ it := by
          rw [← hit, List.mem_filter]
          exact ⟨hr, by simp [hrk']⟩
        obtain ⟨x, rest, hx⟩ := List.exists_cons_of_ne_nil (List.ne_nil_of_mem hmem)
        refine ⟨x, rest, hx, ?_⟩
        have hxin : x ∈ node.sorted_elems_.filter
            (fun r => decide (i ≤ node.key_extractor_ r)) := by
          rw [hit, hx]
          exact List.mem_cons_self _ _
        have hxi : i ≤ node.key_extractor_ x := by
          simpa using (List.mem_filter.mp hxin).2
        have hsf : List.Pairwise (fun a b => node.key_extractor_ a ≤ node.key_extractor_ b)
            (x :: rest) := by
          rw [← hx, ← hit]
          exact hsorted.filter _
        have hrx : r ∈ x :: rest := by rw [← hx]; exact hmem
        rcases List.mem_cons.mp hrx with rfl | hrr
        · exact hrk'
        · have := (List.pairwise_cons.mp hsf).1 r hrr
          omega
      · simp [Emission.call] at hcall

theorem PushData_calls_once_per_key_witness :
    ∃ fuel0, ∀ fuel, fuel0 ≤ fuel → ∃ trace,
      PushData (countNode 10 2 1 [5, 5, 7, 9]) fuel = Except.ok trace ∧
      List.Pairwise (fun k1 k2 => k1 < k2) (called_keys trace) ∧
      (∀ k, k ∈ called_keys trace ↔
        ∃ r ∈ (countNode 10 2 1 [5, 5, 7, 9]).sorted_elems_,
          (countNode 10 2 1 [5, 5, 7, 9]).key_extractor_ r = k) ∧
      (∀ e ∈ trace, ∀ it k, e.call = some (it, k) →
        ∃ r rest, it = r :: rest ∧ (countNode 10 2 1 [5, 5, 7, 9]).key_extractor_ r = k) :=
  PushData_calls_once_per_key (countNode 10 2 1 [5, 5, 7, 9]) (fun run _ => run.length)
    (by decide) (by decide) (by decide) (by decide) (by decide) (fun _ _ => rfl)


/-! ## Counters and bounds of the receive loop -/

/-- C12: for a freshly constructed node (no run stored), every capacity and
every input stream of `N` records, the `totalsize` that `MainOp` has computed
when it reaches the merge equals `N`, the number of records read from the
channel, and also the sum of the sizes of all runs in `files_`; with an empty
output file and more than one run, the output is the multiway merge called with
that `totalsize`. -/
theorem MainOp_totalsize (node : GroupByIndexNode ValueIn ValueOut) (cap : Nat)
    (channel : List ValueIn) (hf : node.files_ = []) (hs : node.sorted_elems_ = []) :
    (spill_phase node cap channel).totalsize = channel.length ∧
    (spill_phase node cap channel).totalsize
      = ((spill_phase node cap channel).node.files_.map List.length).sum ∧
    ((spill_phase node cap channel).node.files_.length ≠ 1 →
      (MainOp node cap channel).sorted_elems_ =
        sequential_file_multiway_merge (record_comparator node)
          (spill_phase node cap channel).node.files_
          (spill_phase node cap channel).totalsize) := by
  obtain ⟨runs, h1, -, h3, hperm, -, hout⟩ := MainOp_spec node cap channel hf hs
  refine ⟨?_, ?_, ?_⟩
  · rw [h3, hperm.length_eq]
  · rw [h3, h1, List.length_flatten]
  · intro hlen
    rw [h1] at hlen ⊢
    rcases hout with ⟨run, hr, -⟩ | ⟨-, hmerge⟩
    · rw [hr] at hlen
      exact absurd rfl hlen
    · rw [hmerge, h3]

theorem MainOp_totalsize_witness :
    (spill_phase (countNode 10 1 0 []) 3 [7, 4, 1, 8, 5, 2, 9]).totalsize = 7 ∧
    (spill_phase (countNode 10 1 0 []) 3 [7, 4, 1, 8, 5, 2, 9]).totalsize
      = ((spill_phase (countNode 10 1 0 []) 3 [7, 4, 1, 8, 5, 2, 9]).node.files_.map
          List.length).sum :=
  ⟨(MainOp_totalsize (countNode 10 1 0 []) 3 [7, 4, 1, 8, 5, 2, 9] rfl rfl).1,
   (MainOp_totalsize (countNode 10 1 0 []) 3 [7, 4, 1, 8, 5, 2, 9] rfl rfl).2.1⟩

theorem receive_loop_append (cap : Nat) (pre post : List ValueIn)
    (st : MainOpState ValueIn ValueOut) :
    receive_loop cap st (pre ++ post) = receive_loop cap (receive_loop cap st pre) post := by
  induction pre generalizing st with
  | nil => simp [receive_loop]
  | cons elem reader ih =>
    simp only [List.cons_append, receive_loop]
    exact ih _

theorem receive_loop_bound (cap : Nat) (hcap : 1 ≤ cap) (input : List ValueIn)
    (st : MainOpState ValueIn ValueOut) (hinc : st.incoming.length ≤ cap)
    (hfiles : ∀ f ∈ st.node.files_, f.length ≤ cap) :
    (receive_loop cap st input).incoming.length ≤ cap ∧
    ∀ f ∈ (receive_loop cap st input).node.files_, f.length ≤ cap := by
  induction input generalizing st with
  | nil => exact ⟨hinc, hfiles⟩
  | cons elem reader ih =>
    unfold receive_loop
    by_cases hfull : st.incoming.length = cap
    · simp only [hfull, if_true]
      apply ih
      · simpa using hcap
      · intro f hf
        rw [FlushVectorToFile_eq] at hf
        rcases List.mem_append.mp hf with hf | hf
        · exact hfiles f hf
        · rw [List.mem_singleton.mp hf, (std_sort_perm _ _).length_eq]
          exact hinc
    · simp only [hfull, if_false]
      apply ih
      · simp only [List.length_append, List.length_singleton]
        omega
      · exact hfiles

/-- C13: for a freshly constructed node, every input stream and every capacity
`FIXED_VECTOR_SIZE ≥ 1`, after each iteration of the receive loop of `MainOp`
(that is, after any prefix of the stream has been read) the in-memory buffer
holds at most `FIXED_VECTOR_SIZE` records, and every run in `files_` at the end
of the receive phase holds at most `FIXED_VECTOR_SIZE` records. -/
theorem MainOp_buffer_bounded (node : GroupByIndexNode ValueIn ValueOut) (cap : Nat)
    (channel : List ValueIn) (hcap : 1 ≤ cap) (hf : node.files_ = []) :
    (∀ pre post, channel = pre ++ post →
      (receive_loop cap ⟨node, [], 0⟩ pre).incoming.length ≤ cap) ∧
    ∀ run ∈ (spill_phase node cap channel).node.files_, run.length ≤ cap := by
  have hinit : ∀ f ∈ (⟨node, [], 0⟩ : MainOpState ValueIn ValueOut).node.files_,
      f.length ≤ cap := by
    intro f hfm
    simp [hf] at hfm
  refine ⟨?_, ?_⟩
  · intro pre post _
    exact (receive_loop_bound cap hcap pre ⟨node, [], 0⟩ (Nat.zero_le _) hinit).1
  · intro run hrun
    have hb := receive_loop_bound cap hcap channel ⟨node, [], 0⟩ (Nat.zero_le _) hinit
    unfold spill_phase at hrun
    simp only [FlushVectorToFile_eq] at hrun
    rcases List.mem_append.mp hrun with hrun | hrun
    · exact hb.2 run hrun
    · rw [List.mem_singleton.mp hrun, (std_sort_perm _ _).length_eq]
      exact hb.1

theorem MainOp_buffer_bounded_witness :
    (∀ pre post, [7, 4, 1, 8, 5, 2, 9] = pre ++ post →
      (receive_loop 3 ⟨countNode 10 1 0 [], [], 0⟩ pre).incoming.length ≤ 3) ∧
    ∀ run ∈ (spill_phase (countNode 10 1 0 []) 3 [7, 4, 1, 8, 5, 2, 9]).node.files_,
      run.length ≤ 3 :=
  MainOp_buffer_bounded (countNode 10 1 0 []) 3 [7, 4, 1, 8, 5, 2, 9] (by decide) rfl


/-! ## The assertion of `PreOp` and the agreement of the key ranges -/

theorem PreOp_eq_run (node : GroupByIndexNode ValueIn ValueOut) (v : ValueIn) :
    PreOp node v = match (PreOp_run node v).2 with
      | some fault => Except.error fault
      | none => Except.ok (PreOp_run node v).1 := by
  unfold PreOp PreOp_run
  simp only []
  split
  · rfl
  · split
    · rfl
    · split
      · rfl
      · split <;> rfl

/-- C15: `PreOp` stops with the failed assertion if and only if the extracted
key is not below `number_keys_` (keys are unsigned, so this is the key being
outside `[0, number_keys_)`); when it does, the node, and with it every channel
writer in `emitter_`, is as it was before the call: no record has been
written. -/
theorem PreOp_assertion_iff (node : GroupByIndexNode ValueIn ValueOut) (v : ValueIn) :
    (PreOp node v = Except.error Fault.assertion_failed
      ↔ ¬ node.key_extractor_ v < node.number_keys_) ∧
    ((PreOp_run node v).2 = some Fault.assertion_failed
      ↔ ¬ node.key_extractor_ v < node.number_keys_) ∧
    ((PreOp_run node v).2 = some Fault.assertion_failed →
      (PreOp_run node v).1 = node ∧ (PreOp_run node v).1.emitter_ = node.emitter_) := by
  have hrun : (PreOp_run node v).2 = some Fault.assertion_failed
      ↔ ¬ node.key_extractor_ v < node.number_keys_ := by
    unfold PreOp_run
    simp only []
    split
    · next h => simp [h]
    · next h =>
      split
      · simp [h]
      · split
        · simp [h]
        · split <;> simp [h]
  refine ⟨?_, hrun, ?_⟩
  · rw [← hrun, PreOp_eq_run]
    cases h : (PreOp_run node v).2 with
    | none => simp
    | some fault => simp
  · intro h
    have hk := hrun.mp h
    have : PreOp_run node v = (node, some Fault.assertion_failed) := by
      unfold PreOp_run
      simp only []
      rw [if_pos hk]
    rw [this]
    exact ⟨rfl, rfl⟩

theorem PreOp_assertion_iff_witness :
    PreOp (countNode 10 2 0 []) 12 = Except.error Fault.assertion_failed ∧
    (PreOp_run (countNode 10 2 0 []) 12).1.emitter_ = (countNode 10 2 0 []).emitter_ :=
  ⟨(PreOp_assertion_iff (countNode 10 2 0 []) 12).1.mpr (by decide),
   ((PreOp_assertion_iff (countNode 10 2 0 []) 12).2.2
      ((PreOp_assertion_iff (countNode 10 2 0 []) 12).2.1.mpr (by decide))).2⟩

/-- C19: when the sorted output file of a worker is empty, `PushData` returns
without any iteration, whatever `number_keys_`, the number of workers, the rank
and the number of iterations allowed are: nothing is pushed downstream, neither
a neutral element nor a grouped result, and the grouping function is never
called. -/
theorem PushData_empty_file (node : GroupByIndexNode ValueIn ValueOut) (fuel : Nat)
    (hs : node.sorted_elems_ = []) :
    PushData node fuel = Except.ok [] ∧
    (PushData node fuel).map emitted = Except.ok [] ∧
    (PushData node fuel).map called_keys = Except.ok [] := by
  have h : PushData node fuel = Except.ok [] := by
    unfold PushData
    rw [hs]
  rw [h]
  exact ⟨rfl, rfl, rfl⟩

theorem PushData_empty_file_witness :
    PushData (countNode 10 0 7 []) 0 = Except.ok [] ∧
    (PushData (countNode 10 0 7 []) 0).map emitted = Except.ok [] ∧
    (PushData (countNode 10 0 7 []) 0).map called_keys = Except.ok [] :=
  PushData_empty_file (countNode 10 0 7 []) 0 rfl


/-! ## Termination of the grouping driver -/

/-- C14: let the sorted output file have non-decreasing keys, all `std::size_t`
values at least `start = keyspace * my_rank` (computed without overflow), and
let the grouping function consume exactly the run of the key it is called for.
Then `PushData` terminates: there is a number of iterations after which it has
returned, with the same trace for every larger bound, and the trace has exactly
that many iterations.  For an empty file there is no iteration; otherwise the
last iteration is a call of the grouping function that leaves the iterator
without any record, so the loop ends as soon as the reader is exhausted. -/
theorem PushData_terminates (node : GroupByIndexNode ValueIn ValueOut)
    (f : List ValueIn → Nat → ValueOut)
    (hw : 1 ≤ node.emitter_.length)
    (hstart : keyspace node.number_keys_ node.emitter_.length * node.my_rank < SIZE_MOD)
    (hsize : ∀ r ∈ node.sorted_elems_, node.key_extractor_ r < SIZE_MOD)
    (hsorted : List.Pairwise (fun a b => node.key_extractor_ a ≤ node.key_extractor_ b)
      node.sorted_elems_)
    (hge : ∀ r ∈ node.sorted_elems_,
      keyspace node.number_keys_ node.emitter_.length * node.my_rank ≤ node.key_extractor_ r)
    (hg : ConsumesRun node f) :
    ∃ fuel0 trace, (∀ fuel, fuel0 ≤ fuel → PushData node fuel = Except.ok trace) ∧
      trace.length = fuel0 ∧
      (node.sorted_elems_ = [] → trace = []) ∧
      (node.sorted_elems_ ≠ [] → ∃ it k res,
        trace.getLast? = some (Emission.grouped it k res) ∧
        (node.groupby_function_ it k).2 = []) := by
  by_cases hne : node.sorted_elems_ = []
  · refine ⟨0, [], ?_, rfl, fun _ => rfl, fun h => absurd hne h⟩
    intro fuel _
    unfold PushData
    rw [hne]
  · obtain ⟨r0, hr0, hmax⟩ := exists_max_key node.key_extractor_ node.sorted_elems_ hne
    refine ⟨node.key_extractor_ r0
      - keyspace node.number_keys_ node.emitter_.length * node.my_rank + 1, _,
      fun fuel hfuel => PushData_trace_spec node f (node.key_extractor_ r0) hw hstart
        (hsize r0 hr0) hsorted hge hmax ⟨r0, hr0, rfl⟩ hg fuel hfuel, ?_, ?_, ?_⟩
    · simp
    · intro h
      exact absurd h hne
    · intro _
      have hr0ge := hge r0 hr0
      have hlast : keyspace node.number_keys_ node.emitter_.length * node.my_rank
          + 1 * (node.key_extractor_ r0
            - keyspace node.number_keys_ node.emitter_.length * node.my_rank)
          = node.key_extractor_ r0 := by omega
      have hany : node.sorted_elems_.any
          (fun r => node.key_extractor_ r == node.key_extractor_ r0) = true :=
        List.any_eq_true.mpr ⟨r0, hr0, by simp⟩
      have hmemf : r0 ∈ node.sorted_elems_.filter
          (fun r => decide (node.key_extractor_ r0 ≤ node.key_extractor_ r)) := by
        rw [List.mem_filter]
        exact ⟨hr0, by simp⟩
      obtain ⟨x, rest, hx⟩ := List.exists_cons_of_ne_nil (List.ne_nil_of_mem hmemf)
      have hall : ∀ y ∈ x :: rest, node.key_extractor_ y = node.key_extractor_ r0 := by
        intro y hy
        rw [← hx, List.mem_filter] at hy
        have h1 := hmax y hy.1
        have h2 : node.key_extractor_ r0 ≤ node.key_extractor_ y := by simpa using hy.2
        omega
      have hxk := hall x (List.mem_cons_self _ _)
      refine ⟨x :: rest, node.key_extractor_ r0,
        f (node.sorted_elems_.filter
          (fun r => node.key_extractor_ r == node.key_extractor_ r0))
          (node.key_extractor_ r0), ?_, ?_⟩
      · rw [List.range'_concat, List.map_append, List.map_singleton, List.getLast?_concat,
          hlast]
        unfold expected_emission
        rw [if_pos hany, hx]
      · rw [← hxk, hg x rest]
        simp only []
        rw [List.dropWhile_eq_nil_iff]
        intro y hy
        have := hall y hy
        simp [this, hxk]

theorem PushData_terminates_witness :
    ∃ fuel0 trace,
      (∀ fuel, fuel0 ≤ fuel → PushData (countNode 10 2 1 [5, 5, 7, 9]) fuel = Except.ok trace) ∧
      trace.length = fuel0 ∧
      ((countNode 10 2 1 [5, 5, 7, 9]).sorted_elems_ = [] → trace = []) ∧
      ((countNode 10 2 1 [5, 5, 7, 9]).sorted_elems_ ≠ [] → ∃ it k res,
        trace.getLast? = some (Emission.grouped it k res) ∧
        ((countNode 10 2 1 [5, 5, 7, 9]).groupby_function_ it k).2 = []) :=
  PushData_terminates (countNode 10 2 1 [5, 5, 7, 9]) (fun run _ => run.length)
    (by decide) (by decide) (by decide) (by decide) (by decide) (fun _ _ => rfl)


/-! ## The number of runs -/

theorem receive_loop_runs (cap : Nat) (hcap : 1 ≤ cap) (input : List ValueIn)
    (node : GroupByIndexNode ValueIn ValueOut) (incoming : List ValueIn) (total : Nat)
    (hinc : incoming.length ≤ cap) :
    ∃ fs inc, receive_loop cap ⟨node, incoming, total⟩ input =
        ⟨{ node with files_ := node.files_ ++ fs }, inc, total + fs.length * cap⟩ ∧
      (∀ f ∈ fs, f.length = cap) ∧ inc.length ≤ cap ∧
      fs.length * cap + inc.length = incoming.length + input.length ∧
      (input ≠ [] → inc ≠ []) := by
  induction input generalizing node incoming total with
  | nil =>
    refine ⟨[], incoming, ?_, ?_, hinc, ?_, ?_⟩
    · simp [receive_loop]
    · simp
    · simp
    · intro h
      exact absurd rfl h
  | cons elem reader ih =>
    unfold receive_loop
    by_cases hfull : incoming.length = cap
    · simp only [hfull, if_true]
      rw [FlushVectorToFile_eq]
      obtain ⟨fs, inc, heq, hlen, hle, hsum, hnil⟩ :=
        ih { node with files_ := node.files_ ++ [std_sort (record_comparator node) incoming] }
          ([] ++ [elem]) (total + cap) (by simpa using hcap)
      refine ⟨std_sort (record_comparator node) incoming :: fs, inc, ?_, ?_, hle, ?_, ?_⟩
      · rw [heq]
        simp only [List.length_cons, Nat.add_mul, Nat.one_mul, List.append_assoc,
          List.singleton_append]
        congr 1
        omega
      · intro f hf
        rcases List.mem_cons.mp hf with rfl | hf
        · rw [(std_sort_perm _ _).length_eq, hfull]
        · exact hlen f hf
      · simp only [List.nil_append, List.length_singleton] at hsum
        simp only [List.length_cons, Nat.add_mul, Nat.one_mul]
        omega
      · intro _
        by_cases hr : reader = []
        · subst hr
          simp only [receive_loop, List.nil_append] at heq
          have := congrArg MainOpState.incoming heq
          simp only at this
          rw [← this]
          simp
        · exact hnil hr
    · simp only [hfull, if_false]
      obtain ⟨fs, inc, heq, hlen, hle, hsum, hnil⟩ := ih node (incoming ++ [elem]) total
        (by simp only [List.length_append, List.length_singleton]; omega)
      refine ⟨fs, inc, heq, hlen, hle, ?_, ?_⟩
      · simp only [List.length_append, List.length_singleton] at hsum
        simp only [List.length_cons]
        omega
      · intro _
        by_cases hr : reader = []
        · subst hr
          simp only [receive_loop] at heq
          have := congrArg MainOpState.incoming heq
          simp only at this
          rw [← this]
          simp
        · exact hnil hr


theorem ceil_div_of_runs (N cap k j : Nat) (hcap : 1 ≤ cap) (hsum : k * cap + j = N)
    (hj : j ≤ cap) (hpos : N ≠ 0 → j ≠ 0) :
    k + 1 = max 1 ⌈(N : ℚ) / (cap : ℚ)⌉₊ := by
  have hcq : (0 : ℚ) < (cap : ℚ) := by exact_mod_cast hcap
  by_cases hN : N = 0
  · subst hN
    have hk : k * cap = 0 := by omega
    rcases Nat.mul_eq_zero.mp hk with hk0 | hc0
    · simp [hk0]
    · omega
  · have hj0 := hpos hN
    have hceil : ⌈(N : ℚ) / (cap : ℚ)⌉₊ = k + 1 := by
      rw [Nat.ceil_eq_iff (Nat.succ_ne_zero _)]
      constructor
      · rw [lt_div_iff₀ hcq]
        have : (k + 1 - 1) * cap < N := by
          simp only [Nat.add_sub_cancel]
          omega
        exact_mod_cast this
      · rw [div_le_iff₀ hcq]
        have : N ≤ (k + 1) * cap := by
          rw [Nat.add_mul]
          omega
        exact_mod_cast this
    rw [hceil]
    omega

/-- C20: for a freshly constructed node, every input stream of `N` records and
every capacity `C ≥ 1`, the receive phase of `MainOp` leaves exactly
`max(1, ceil(N / C))` runs in `files_`: every run but the last holds exactly
`C` records, the last run holds the remaining `N - C * (runs - 1)` records and
is empty exactly when `N = 0`.  Hence `MainOp` finds a number of runs other
than one, and takes the multiway-merge branch, if and only if `N > C`; for
`N ≤ C` it copies the only run. -/
theorem MainOp_number_of_runs (node : GroupByIndexNode ValueIn ValueOut) (cap : Nat)
    (channel : List ValueIn) (hcap : 1 ≤ cap) (hf : node.files_ = [])
    (hs : node.sorted_elems_ = []) :
    ∃ fs last, (spill_phase node cap channel).node.files_ = fs ++ [last] ∧
      (fs ++ [last]).length = max 1 ⌈(channel.length : ℚ) / (cap : ℚ)⌉₊ ∧
      (∀ f ∈ fs, f.length = cap) ∧
      last.length = channel.length - cap * fs.length ∧
      (last = [] ↔ channel.length = 0) ∧
      ((spill_phase node cap channel).node.files_.length ≠ 1 ↔ cap < channel.length) ∧
      (cap < channel.length → (MainOp node cap channel).sorted_elems_ =
        sequential_file_multiway_merge (record_comparator node) (fs ++ [last]) channel.length) ∧
      (channel.length ≤ cap → (MainOp node cap channel).sorted_elems_ = last) := by
  obtain ⟨fs, inc, heq, hlen, hle, hsum, hnil⟩ :=
    receive_loop_runs cap hcap channel node [] 0 (Nat.zero_le _)
  have hfiles : (spill_phase node cap channel).node.files_
      = fs ++ [std_sort (record_comparator node) inc] := by
    unfold spill_phase
    simp only [heq]
    rw [FlushVectorToFile_eq]
    simp [hf]
    rfl
  have hlast : (std_sort (record_comparator node) inc).length = inc.length :=
    (std_sort_perm _ _).length_eq
  simp only [List.length_nil, Nat.zero_add] at hsum
  have hzero : channel.length ≠ 0 → inc.length ≠ 0 := by
    intro h hi
    exact hnil (fun hc => h (by rw [hc]; rfl)) (List.length_eq_zero.mp hi)
  have hcount : fs.length = 0 ↔ channel.length ≤ cap := by
    constructor
    · intro h0
      rw [h0] at hsum
      omega
    · intro hN
      by_contra hk
      have h1 : 1 ≤ fs.length := Nat.pos_of_ne_zero hk
      have h2 : cap ≤ fs.length * cap := Nat.le_mul_of_pos_left cap h1
      have h3 : channel.length ≠ 0 := by omega
      have := hzero h3
      omega
  obtain ⟨runs, h1, -, h3, -, -, hout⟩ := MainOp_spec node cap channel hf hs
  rw [hfiles] at h1
  subst h1
  have htotal : (fs ++ [std_sort (record_comparator node) inc]).flatten.length
      = channel.length := by
    rw [← h3]
    unfold spill_phase
    simp only [heq]
    omega
  refine ⟨fs, std_sort (record_comparator node) inc, hfiles, ?_, hlen, ?_, ?_, ?_, ?_, ?_⟩
  · rw [List.length_append, List.length_singleton]
    exact ceil_div_of_runs channel.length cap fs.length inc.length hcap hsum hle hzero
  · rw [hlast, Nat.mul_comm]
    omega
  · rw [← List.length_eq_zero, hlast]
    constructor
    · intro hi
      by_contra hN
      exact hzero hN hi
    · intro hN
      omega
  · rw [hfiles, List.length_append, List.length_singleton]
    constructor
    · intro h
      by_contra hN
      have := hcount.mpr (by omega)
      omega
    · intro hN h
      have := hcount.mp (by omega)
      omega
  · intro hN
    rcases hout with ⟨run, hr, -⟩ | ⟨-, hmerge⟩
    · have hl := congrArg List.length hr
      simp only [List.length_append, List.length_singleton] at hl
      have := hcount.mp (by omega)
      omega
    · rw [hmerge, htotal]
  · intro hN
    have hk := hcount.mpr hN
    have hfs : fs = [] := List.length_eq_zero.mp hk
    subst hfs
    rcases hout with ⟨run, hr, hrun⟩ | ⟨hnot, -⟩
    · rw [hrun]
      simp only [List.nil_append] at hr
      exact (List.cons.inj hr).1.symm
    · exact absurd rfl (hnot _)

theorem MainOp_number_of_runs_witness :
    ∃ fs last, (spill_phase (countNode 10 1 0 []) 3 [7, 4, 1, 8, 5, 2, 9]).node.files_
        = fs ++ [last] ∧
      (fs ++ [last]).length = max 1 ⌈(([7, 4, 1, 8, 5, 2, 9] : List Nat).length : ℚ) / ((3 : ℕ) : ℚ)⌉₊ ∧
      (∀ f ∈ fs, f.length = 3) ∧
      last.length = ([7, 4, 1, 8, 5, 2, 9] : List Nat).length - 3 * fs.length ∧
      (MainOp (countNode 10 1 0 []) 3 [7, 4, 1, 8, 5, 2, 9]).sorted_elems_ =
        sequential_file_multiway_merge (record_comparator (countNode 10 1 0 [])) (fs ++ [last])
          ([7, 4, 1, 8, 5, 2, 9] : List Nat).length := by
  obtain ⟨fs, last, h1, h2, h3, h4, -, -, h7, -⟩ :=
    MainOp_number_of_runs (countNode 10 1 0 []) 3 [7, 4, 1, 8, 5, 2, 9] (by decide) rfl rfl
  exact ⟨fs, last, h1, h2, h3, h4, h7 (by decide)⟩


/-! ## Conservation of records through the whole operator -/

theorem consumed_of_ConsumesRun (node : GroupByIndexNode ValueIn ValueOut)
    (f : List ValueIn → Nat → ValueOut) (hg : ConsumesRun node f) (r : ValueIn)
    (rest : List ValueIn) (res : ValueOut) :
    Emission.consumed node (Emission.grouped (r :: rest) (node.key_extractor_ r) res)
      = (r :: rest).takeWhile (fun x => node.key_extractor_ x == node.key_extractor_ r) := by
  simp only [Emission.consumed]
  rw [hg r rest]
  simp only []
  have happ := List.takeWhile_append_dropWhile
    (fun x => node.key_extractor_ x == node.key_extractor_ r) (r :: rest)
  have hlen := congrArg List.length happ
  rw [List.length_append] at hlen
  have hk : (r :: rest).length - ((r :: rest).dropWhile
      (fun x => node.key_extractor_ x == node.key_extractor_ r)).length
      = ((r :: rest).takeWhile
        (fun x => node.key_extractor_ x == node.key_extractor_ r)).length := by omega
  rw [hk]
  calc List.take ((r :: rest).takeWhile
          (fun x => node.key_extractor_ x == node.key_extractor_ r)).length (r :: rest)
      = List.take ((r :: rest).takeWhile
          (fun x => node.key_extractor_ x == node.key_extractor_ r)).length
          ((r :: rest).takeWhile (fun x => node.key_extractor_ x == node.key_extractor_ r)
            ++ (r :: rest).dropWhile
              (fun x => node.key_extractor_ x == node.key_extractor_ r)) := by rw [happ]
    _ = (r :: rest).takeWhile (fun x => node.key_extractor_ x == node.key_extractor_ r) :=
        List.take_left' rfl

theorem push_loop_consumes (node : GroupByIndexNode ValueIn ValueOut)
    (f : List ValueIn → Nat → ValueOut) (hg : ConsumesRun node f) :
    ∀ (len : Nat) (it : List ValueIn) (c : Nat), it.length ≤ len →
      (∀ r ∈ it, node.key_extractor_ r < SIZE_MOD) → c < SIZE_MOD →
      ∃ fuel0, ∀ fuel, fuel0 ≤ fuel → ∃ trace,
        push_loop node fuel it c = Except.ok trace ∧ grouped_records node trace = it := by
  intro len
  induction len with
  | zero =>
    intro it c hlen _ _
    have : it = [] := List.length_eq_zero.mp (by omega)
    subst this
    exact ⟨0, fun fuel _ => ⟨[], by simp [push_loop], rfl⟩⟩
  | succ len ih =>
    intro it c hlen hsize hc
    cases it with
    | nil => exact ⟨0, fun fuel _ => ⟨[], by simp [push_loop], rfl⟩⟩
    | cons r rest =>
      have hr := hsize r (List.mem_cons_self _ _)
      -- inner induction on the distance of `curr_index` to the key of `r`
      have inner : ∀ (d c : Nat), c < SIZE_MOD →
          (node.key_extractor_ r + SIZE_MOD - c) % SIZE_MOD = d →
          ∃ fuel0, ∀ fuel, fuel0 ≤ fuel → ∃ trace,
            push_loop node fuel (r :: rest) c = Except.ok trace ∧
            grouped_records node trace = r :: rest := by
        intro d
        induction d with
        | zero =>
          intro c hc hd
          have hkc : node.key_extractor_ r = c := by
            unfold SIZE_MOD at hr hc hd
            omega
          subst hkc
          have hdrop : ((r :: rest).dropWhile
              (fun x => node.key_extractor_ x == node.key_extractor_ r)).length ≤ len := by
            have : (r :: rest).dropWhile
                (fun x => node.key_extractor_ x == node.key_extractor_ r)
                = rest.dropWhile
                  (fun x => node.key_extractor_ x == node.key_extractor_ r) := by
              simp [List.dropWhile_cons]
            rw [this]
            have := (List.dropWhile_suffix
              (fun x => node.key_extractor_ x == node.key_extractor_ r) (l := rest)).length_le
            simp only [List.length_cons] at hlen
            omega
          have hsz : ∀ x ∈ (r :: rest).dropWhile
              (fun x => node.key_extractor_ x == node.key_extractor_ r),
              node.key_extractor_ x < SIZE_MOD :=
            fun x hx => hsize x ((List.dropWhile_suffix _).subset hx)
          obtain ⟨fuel0, hfuel0⟩ := ih _ ((node.key_extractor_ r + 1) % SIZE_MOD) hdrop hsz
            (Nat.mod_lt _ (by unfold SIZE_MOD; decide))
          refine ⟨fuel0 + 1, ?_⟩
          intro fuel hfuel
          obtain ⟨fuel', rfl⟩ : ∃ fuel', fuel = fuel' + 1 := ⟨fuel - 1, by omega⟩
          obtain ⟨trace, htr, hrec⟩ := hfuel0 fuel' (by omega)
          refine ⟨Emission.grouped (r :: rest) (node.key_extractor_ r)
            (node.groupby_function_ (r :: rest) (node.key_extractor_ r)).1 :: trace, ?_, ?_⟩
          · simp only [push_loop, ne_eq, not_true_eq_false, if_false]
            rw [hg r rest]
            simp only []
            rw [htr]
            rfl
          · unfold grouped_records at hrec ⊢
            rw [List.map_cons, List.flatten_cons, hrec, consumed_of_ConsumesRun node f hg]
            exact List.takeWhile_append_dropWhile _ _
        | succ d ihd =>
          intro c hc hd
          have hkc : node.key_extractor_ r ≠ c := by
            intro h
            subst h
            unfold SIZE_MOD at hr hd
            omega
          have hnext : (node.key_extractor_ r + SIZE_MOD - (c + 1) % SIZE_MOD) % SIZE_MOD
              = d := by
            unfold SIZE_MOD at hr hc hd ⊢
            omega
          obtain ⟨fuel0, hfuel0⟩ := ihd ((c + 1) % SIZE_MOD)
            (Nat.mod_lt _ (by unfold SIZE_MOD; decide)) hnext
          refine ⟨fuel0 + 1, ?_⟩
          intro fuel hfuel
          obtain ⟨fuel', rfl⟩ : ∃ fuel', fuel = fuel' + 1 := ⟨fuel - 1, by omega⟩
          obtain ⟨trace, htr, hrec⟩ := hfuel0 fuel' (by omega)
          refine ⟨Emission.neutral node.neutral_element_ :: trace, ?_, ?_⟩
          · simp only [push_loop, ne_eq, hkc, not_false_eq_true, if_true]
            rw [htr]
            rfl
          · unfold grouped_records at hrec ⊢
            rw [List.map_cons, List.flatten_cons, hrec]
            rfl
      exact inner _ c hc rfl


theorem PushData_consumes (node : GroupByIndexNode ValueIn ValueOut)
    (f : List ValueIn → Nat → ValueOut) (hg : ConsumesRun node f)
    (hw : 1 ≤ node.emitter_.length)
    (hsize : ∀ r ∈ node.sorted_elems_, node.key_extractor_ r < SIZE_MOD) :
    ∃ fuel0, ∀ fuel, fuel0 ≤ fuel → ∃ trace,
      PushData node fuel = Except.ok trace ∧
      grouped_records node trace = node.sorted_elems_ := by
  obtain ⟨fuel0, h⟩ := push_loop_consumes node f hg node.sorted_elems_.length
    node.sorted_elems_
    ((keyspace node.number_keys_ node.emitter_.length * node.my_rank) % SIZE_MOD)
    (Nat.le_refl _) hsize (Nat.mod_lt _ (by unfold SIZE_MOD; decide))
  refine ⟨fuel0, fun fuel hfuel => ?_⟩
  obtain ⟨trace, htr, hrec⟩ := h fuel hfuel
  refine ⟨trace, ?_, hrec⟩
  unfold PushData
  cases hs : node.sorted_elems_ with
  | nil =>
    rw [hs] at htr
    simp only [push_loop] at htr
    exact htr
  | cons r rest =>
    rw [hs] at htr
    simp only []
    rw [if_neg (by omega)]
    exact htr

theorem MainOp_eq (node : GroupByIndexNode ValueIn ValueOut) (cap : Nat)
    (channel : List ValueIn) :
    ∃ F S, MainOp node cap channel = { node with files_ := F, sorted_elems_ := S } := by
  obtain ⟨runs, heq, -, -, -⟩ := spill_phase_spec node cap channel
  unfold MainOp
  simp only [heq]
  split
  · exact ⟨_, _, rfl⟩
  · exact ⟨_, _, rfl⟩

theorem partition_perm (g : ValueIn → Nat) (w : Nat) (l : List ValueIn)
    (h : ∀ v ∈ l, g v < w) :
    List.Perm ((List.range w).map (fun r => l.filter (fun v => g v == r))).flatten l := by
  induction w generalizing l with
  | zero =>
    cases l with
    | nil => simp
    | cons v t => exact absurd (h v (List.mem_cons_self _ _)) (Nat.not_lt_zero _)
  | succ w ih =>
    rw [List.range_succ, List.map_append, List.flatten_append]
    simp only [List.map_cons, List.map_nil, List.flatten_cons, List.flatten_nil,
      List.append_nil]
    have hrest : ∀ v ∈ l.filter (fun v => !(g v == w)), g v < w := by
      intro v hv
      rw [List.mem_filter] at hv
      have h1 := h v hv.1
      have h2 : g v ≠ w := by simpa using hv.2
      omega
    have hmap : (List.range w).map (fun r => l.filter (fun v => g v == r))
        = (List.range w).map
          (fun r => (l.filter (fun v => !(g v == w))).filter (fun v => g v == r)) := by
      apply List.map_congr_left
      intro r hr
      rw [List.mem_range] at hr
      rw [List.filter_filter]
      apply List.filter_congr
      intro v _
      by_cases hv : g v = r
      · have : g v ≠ w := by omega
        simp [hv, this]
        omega
      · simp [hv]
    rw [hmap]
    refine ((ih _ hrest).append_right _).trans ?_
    exact List.perm_append_comm.trans (List.filter_append_perm (fun v => g v == w) l)


theorem modify_by_recipient (node : GroupByIndexNode ValueIn ValueOut) (w : Nat)
    (acc : List ValueIn) (v : ValueIn) :
    List.modify (fun buf => buf ++ [v])
      (recipient node.number_keys_ w (node.key_extractor_ v)) (by_recipient node w acc)
      = by_recipient node w (acc ++ [v]) := by
  apply List.ext_getElem?
  intro m
  unfold by_recipient
  rw [List.getElem?_modify, List.getElem?_map, List.getElem?_map]
  by_cases hm : m < w
  · rw [List.getElem?_range hm]
    simp only [Option.map_some', Option.map_eq_map, List.filter_append]
    by_cases hr : recipient node.number_keys_ w (node.key_extractor_ v) = m
    · simp [hr]
    · simp [hr]
  · have hnone : (List.range w)[m]? = none := by
      rw [List.getElem?_eq_none_iff]
      simp only [List.length_range]
      omega
    rw [hnone]
    rfl

theorem PreOp_all_by_recipient (w : Nat) (hw : 1 ≤ w) (l : List ValueIn) :
    ∀ (node0 : GroupByIndexNode ValueIn ValueOut) (acc : List ValueIn),
      node0.emitter_ = by_recipient node0 w acc →
      (∀ v ∈ l, node0.key_extractor_ v < node0.number_keys_) →
      PreOp_all node0 l = Except.ok { node0 with emitter_ := by_recipient node0 w (acc ++ l) } := by
  induction l with
  | nil =>
    intro node0 acc hE _
    rw [List.append_nil, ← hE]
    rfl
  | cons v t ih =>
    intro node0 acc hE hk
    have hlen : node0.emitter_.length = w := by
      rw [hE]
      simp [by_recipient]
    have hkv := hk v (List.mem_cons_self _ _)
    have hsend := PreOp_send node0 v (by omega) (by omega) hkv
    rw [hlen] at hsend
    have hemit : emit_to node0 (recipient node0.number_keys_ w (node0.key_extractor_ v)) v
        = { node0 with emitter_ := by_recipient node0 w (acc ++ [v]) } := by
      unfold emit_to
      rw [hE, modify_by_recipient node0 w acc v]
    simp only [PreOp_all, hsend]
    rw [hemit]
    have := ih { node0 with emitter_ := by_recipient node0 w (acc ++ [v]) } (acc ++ [v]) rfl
      (fun x hx => hk x (List.mem_cons_of_mem _ hx))
    rw [this]
    simp only [List.append_assoc, List.singleton_append]
    rfl

theorem worker_node_emitter (node : GroupByIndexNode ValueIn ValueOut) (w rank : Nat) :
    (worker_node node w rank).emitter_ = by_recipient (worker_node node w rank) w [] := by
  simp [worker_node, by_recipient]


theorem PreOp_all_worker (node : GroupByIndexNode ValueIn ValueOut) (w rank : Nat)
    (hw : 1 ≤ w) (l : List ValueIn)
    (hk : ∀ v ∈ l, node.key_extractor_ v < node.number_keys_) :
    PreOp_all (worker_node node w rank) l = Except.ok (sent_node node w rank l) := by
  have := PreOp_all_by_recipient w hw l (worker_node node w rank) []
    (worker_node_emitter node w rank) hk
  rw [this]
  rfl

theorem PreOp_phase_spec (node : GroupByIndexNode ValueIn ValueOut) (w : Nat) (hw : 1 ≤ w)
    (inputs : List (List ValueIn)) :
    ∀ i, (∀ l ∈ inputs, ∀ v ∈ l, node.key_extractor_ v < node.number_keys_) →
      PreOp_phase node w i inputs
        = Except.ok ((inputs.enumFrom i).map (fun p => sent_node node w p.1 p.2)) := by
  induction inputs with
  | nil =>
    intro i _
    rfl
  | cons l ls ih =>
    intro i hk
    simp only [PreOp_phase]
    rw [PreOp_all_worker node w i hw l (hk l (List.mem_cons_self _ _))]
    simp only []
    rw [ih (i + 1) (fun l' hl' => hk l' (List.mem_cons_of_mem _ hl'))]
    rfl

theorem by_recipient_getD (node : GroupByIndexNode ValueIn ValueOut) (w r : Nat)
    (hw : 1 ≤ w) (l : List ValueIn)
    (hk : ∀ v ∈ l, node.key_extractor_ v < node.number_keys_) :
    (by_recipient node w l).getD r []
      = l.filter (fun v => recipient node.number_keys_ w (node.key_extractor_ v) == r) := by
  unfold by_recipient
  rw [List.getD_eq_getElem?_getD, List.getElem?_map]
  by_cases hr : r < w
  · rw [List.getElem?_range hr]
    rfl
  · have hnone : (List.range w)[r]? = none := by
      rw [List.getElem?_eq_none_iff]
      simp only [List.length_range]
      omega
    rw [hnone]
    simp only [Option.map_none', Option.getD_none]
    symm
    rw [List.filter_eq_nil_iff]
    intro v hv
    have := recipient_lt hw (hk v hv)
    simp only [beq_iff_eq]
    omega

theorem OpenConcatReader_sent (node : GroupByIndexNode ValueIn ValueOut) (w r : Nat)
    (hw : 1 ≤ w) (inputs : List (List ValueIn)) :
    ∀ i, (∀ l ∈ inputs, ∀ v ∈ l, node.key_extractor_ v < node.number_keys_) →
      OpenConcatReader ((inputs.enumFrom i).map (fun p => sent_node node w p.1 p.2)) r
        = inputs.flatten.filter
          (fun v => recipient node.number_keys_ w (node.key_extractor_ v) == r) := by
  induction inputs with
  | nil =>
    intro i _
    rfl
  | cons l ls ih =>
    intro i hk
    have hi := ih (i + 1) (fun l' hl' => hk l' (List.mem_cons_of_mem _ hl'))
    unfold OpenConcatReader at hi ⊢
    simp only [List.enumFrom_cons, List.map_cons, List.flatten_cons, List.filter_append]
    rw [hi]
    congr 1
    exact by_recipient_getD node w r hw l (hk l (List.mem_cons_self _ _))

theorem group_phase_spec (node : GroupByIndexNode ValueIn ValueOut)
    (f : List ValueIn → Nat → ValueOut) (hg : ConsumesRun node f)
    (arrival : Nat → List ValueIn → List ValueIn)
    (harr : ∀ r l, List.Perm (arrival r l) l) (cap : Nat)
    (senders : List (GroupByIndexNode ValueIn ValueOut))
    (hkeys : ∀ r, ∀ v ∈ OpenConcatReader senders r, node.key_extractor_ v < SIZE_MOD) :
    ∀ ss : List (GroupByIndexNode ValueIn ValueOut),
      (∀ s ∈ ss, ∃ E rank, 1 ≤ E.length ∧
        s = { node with emitter_ := E, files_ := [], sorted_elems_ := [], my_rank := rank }) →
      ∃ fuel0, ∀ fuel, fuel0 ≤ fuel → ∃ traces,
        group_phase arrival cap fuel senders ss = Except.ok traces ∧
        List.Forall₂ (fun s t =>
          List.Perm (grouped_records node t) (OpenConcatReader senders s.my_rank)) ss traces := by
  intro ss
  induction ss with
  | nil =>
    intro _
    exact ⟨0, fun fuel _ => ⟨[], rfl, List.Forall₂.nil⟩⟩
  | cons s rest ih =>
    intro hss
    obtain ⟨fuelr, hrest⟩ := ih (fun s' hs' => hss s' (List.mem_cons_of_mem _ hs'))
    obtain ⟨E, rank, hE, hs⟩ := hss s (List.mem_cons_self _ _)
    have hperm := MainOp_sorted_elems_perm s cap
      (arrival s.my_rank (OpenConcatReader senders s.my_rank)) (by rw [hs]) (by rw [hs])
    obtain ⟨F, S, hM⟩ := MainOp_eq s cap (arrival s.my_rank (OpenConcatReader senders s.my_rank))
    rw [hM] at hperm
    have hpermS : List.Perm S (OpenConcatReader senders s.my_rank) :=
      hperm.trans (harr _ _)
    have hcons : ∃ fuel0, ∀ fuel, fuel0 ≤ fuel → ∃ trace,
        PushData (MainOp s cap (arrival s.my_rank (OpenConcatReader senders s.my_rank))) fuel
          = Except.ok trace ∧ grouped_records node trace = S := by
      rw [hM]
      subst hs
      exact PushData_consumes
        { node with emitter_ := E, files_ := F, sorted_elems_ := S, my_rank := rank } f
        (fun r rest => hg r rest) hE
        (fun r hr => hkeys _ r (hpermS.mem_iff.mp hr))
    obtain ⟨fuelh, hhead⟩ := hcons
    refine ⟨max fuelh fuelr, ?_⟩
    intro fuel hfuel
    obtain ⟨trace, htr, hrec⟩ := hhead fuel (le_trans (le_max_left _ _) hfuel)
    obtain ⟨traces, htrs, hall⟩ := hrest fuel (le_trans (le_max_right _ _) hfuel)
    refine ⟨trace :: traces, ?_, List.Forall₂.cons ?_ hall⟩
    · simp only [group_phase, htr, htrs]
    · rw [hrec]
      exact hpermS


/-- C11: for `w ≥ 1` workers, each fed a list of input records whose keys are
below `number_keys_` (a `std::size_t` value), a grouping function that consumes
exactly the run of the key it is called for, and any order of arrival of the
records at the channel readers, the whole operator returns once `PushData` is
given enough iterations; the records that reach the grouping function across
all workers are a permutation of the input records (none lost, none
duplicated), and every record that reaches the grouping function on the worker
of rank `r` has recipient `r`. -/
theorem shuffle_and_group_conserves (node : GroupByIndexNode ValueIn ValueOut)
    (f : List ValueIn → Nat → ValueOut) (w cap : Nat)
    (arrival : Nat → List ValueIn → List ValueIn) (inputs : List (List ValueIn))
    (hw : 1 ≤ w) (hlen : inputs.length = w)
    (hkeys : ∀ l ∈ inputs, ∀ v ∈ l, node.key_extractor_ v < node.number_keys_)
    (hsize : node.number_keys_ ≤ SIZE_MOD)
    (hg : ConsumesRun node f)
    (harr : ∀ r l, List.Perm (arrival r l) l) :
    ∃ fuel0, ∀ fuel, fuel0 ≤ fuel → ∃ traces,
      shuffle_and_group node w cap arrival inputs fuel = Except.ok traces ∧
      List.Perm (traces.map (grouped_records node)).flatten inputs.flatten ∧
      List.Forall₂ (fun r trace => ∀ v ∈ grouped_records node trace,
        recipient node.number_keys_ w (node.key_extractor_ v) = r) (List.range w) traces := by
  have hphase := PreOp_phase_spec node w hw inputs 0 hkeys
  have hocr := fun r => OpenConcatReader_sent node w r hw inputs 0 hkeys
  have hall : ∀ v ∈ inputs.flatten, node.key_extractor_ v < node.number_keys_ := by
    intro v hv
    obtain ⟨l, hl, hvl⟩ := List.mem_flatten.mp hv
    exact hkeys l hl v hvl
  obtain ⟨fuel0, hgroup⟩ := group_phase_spec node f hg arrival harr cap
    ((inputs.enumFrom 0).map (fun p => sent_node node w p.1 p.2))
    (by
      intro r v hv
      rw [hocr r] at hv
      have := hall v (List.mem_filter.mp hv).1
      omega)
    ((inputs.enumFrom 0).map (fun p => sent_node node w p.1 p.2))
    (by
      intro s hs
      obtain ⟨p, -, rfl⟩ := List.mem_map.mp hs
      refine ⟨by_recipient node w p.2, p.1, ?_, rfl⟩
      simp only [by_recipient, List.length_map, List.length_range]
      exact hw)
  refine ⟨fuel0, fun fuel hfuel => ?_⟩
  obtain ⟨traces, htr, hF⟩ := hgroup fuel hfuel
  have hF2 : List.Forall₂ (fun r trace => List.Perm (grouped_records node trace)
      (inputs.flatten.filter
        (fun v => recipient node.number_keys_ w (node.key_extractor_ v) == r)))
      (List.range w) traces := by
    rw [List.forall₂_map_left_iff] at hF
    have h1 : List.Forall₂ (fun (p : Nat × List ValueIn) trace =>
        (fun r trace => List.Perm (grouped_records node trace)
          (inputs.flatten.filter
            (fun v => recipient node.number_keys_ w (node.key_extractor_ v) == r)))
          (Prod.fst p) trace) (inputs.enumFrom 0) traces := by
      refine hF.imp ?_
      intro p t hpt
      show List.Perm (grouped_records node t) (inputs.flatten.filter
        (fun v => recipient node.number_keys_ w (node.key_extractor_ v) == p.1))
      rw [← hocr p.1]
      exact hpt
    have h2 := (@List.forall₂_map_left_iff _ _ _
      (fun r trace => List.Perm (grouped_records node trace)
        (inputs.flatten.filter
          (fun v => recipient node.number_keys_ w (node.key_extractor_ v) == r)))
      Prod.fst (inputs.enumFrom 0) traces).mpr h1
    rw [List.enumFrom_map_fst, hlen, ← List.range_eq_range'] at h2
    exact h2
  refine ⟨traces, ?_, ?_, ?_⟩
  · unfold shuffle_and_group
    rw [hphase]
    exact htr
  · have hcongr : List.Forall₂ (fun x1 x2 => List.Perm x1 x2)
        (traces.map (grouped_records node))
        ((List.range w).map (fun r => inputs.flatten.filter
          (fun v => recipient node.number_keys_ w (node.key_extractor_ v) == r))) := by
      rw [List.forall₂_map_left_iff, List.forall₂_map_right_iff]
      exact List.Forall₂.flip hF2
    refine (List.Perm.flatten_congr hcongr).trans ?_
    exact partition_perm (fun v => recipient node.number_keys_ w (node.key_extractor_ v)) w
      inputs.flatten (fun v hv => recipient_lt hw (hall v hv))
  · refine hF2.imp ?_
    intro r t hperm v hv
    have := (List.mem_filter.mp (hperm.mem_iff.mp hv)).2
    simpa using this

theorem shuffle_and_group_conserves_witness :
    ∃ fuel0, ∀ fuel, fuel0 ≤ fuel → ∃ traces,
      shuffle_and_group (countNode 10 2 0 []) 2 3 (fun _ l => l) [[2, 9, 5], [2, 7, 7, 0]] fuel
        = Except.ok traces ∧
      List.Perm (traces.map (grouped_records (countNode 10 2 0 []))).flatten
        ([[2, 9, 5], [2, 7, 7, 0]] : List (List Nat)).flatten ∧
      List.Forall₂ (fun r trace => ∀ v ∈ grouped_records (countNode 10 2 0 []) trace,
        recipient (countNode 10 2 0 []).number_keys_ 2
          ((countNode 10 2 0 []).key_extractor_ v) = r) (List.range 2) traces :=
  shuffle_and_group_conserves (countNode 10 2 0 []) (fun run _ => run.length) 2 3
    (fun _ l => l) [[2, 9, 5], [2, 7, 7, 0]] (by decide) rfl (by decide) (by decide)
    (fun _ _ => rfl) (fun _ l => List.Perm.refl l)

end Thrill
